import Mathlib

/-!
# Verification of the `texheaders` Go package

Shallow embedding of github.com/woozymasta/texheaders: the binary codec
(`Read` / `Write` for `texHeaders.bin`), the validator, the suffix
classifier, and the builder orchestration.

Modelling conventions:
* Go byte streams are `List Nat` with every element `< 256`.
* Go strings are byte lists (`List Nat`); Go's lexicographic string
  comparison is byte-wise comparison of these lists.
* Machine integers (`uint8/16/32`) are `Nat` values; where the Go type
  bounds a value the embedding carries the bound as an explicit hypothesis
  or derives it from the parse.
* `float32` fields are modelled by their IEEE-754 bit patterns (`Nat`):
  the Go code only ever moves them through `math.Float32frombits` /
  `math.Float32bits`, which are exact bit reinterpretations, so the byte
  level semantics is fully captured by the 32-bit pattern.
* Fallible Go functions return `Option` / `Except`; the encoder returns
  the bytes written so far together with an optional error, mirroring the
  streaming writer (bytes written before a failure stay written).
-/

namespace Texheaders

/-- A Go byte stream: every element is a byte value. -/
def WFStream (s : List Nat) : Prop := ∀ b ∈ s, b < 256

theorem WFStream.tail {b : Nat} {s : List Nat} (h : WFStream (b :: s)) : WFStream s :=
  fun x hx => h x (List.mem_cons_of_mem _ hx)

theorem WFStream.head {b : Nat} {s : List Nat} (h : WFStream (b :: s)) : b < 256 :=
  h b (List.mem_cons_self _ _)

theorem WFStream.append_right {s t : List Nat} (h : WFStream (s ++ t)) : WFStream t :=
  fun x hx => h x (List.mem_append_right _ hx)

/-! ## Little-endian readers (from `decoder` in the source) -/

/-- `readU8`: one byte from the stream. -/
def readU8 : List Nat → Option (Nat × List Nat)
  | [] => none
  | b :: rest => some (b, rest)

/-- `readU16`: two bytes, little-endian. -/
def readU16 (s : List Nat) : Option (Nat × List Nat) :=
  (readU8 s).bind fun (b0, s1) =>
    (readU8 s1).map fun (b1, s2) => (b0 + 256 * b1, s2)

/-- `readU32`: four bytes, little-endian. -/
def readU32 (s : List Nat) : Option (Nat × List Nat) :=
  (readU8 s).bind fun (b0, s1) =>
    (readU8 s1).bind fun (b1, s2) =>
      (readU8 s2).bind fun (b2, s3) =>
        (readU8 s3).map fun (b3, s4) =>
          (b0 + 256 * b1 + 65536 * b2 + 16777216 * b3, s4)

/-- `readBool8` as in the source: any non-zero byte decodes to `true`. -/
def readBool8 (s : List Nat) : Option (Bool × List Nat) :=
  (readU8 s).map fun (v, s1) => (v ≠ 0, s1)

/-- `io.ReadFull` into a fixed-size buffer of `n` bytes. -/
def readBytes (n : Nat) (s : List Nat) : Option (List Nat × List Nat) :=
  if n ≤ s.length then some (s.take n, s.drop n) else none

/-- `readASCIIZ`: bytes up to (and consuming) a zero terminator. -/
def readASCIIZ : List Nat → Option (List Nat × List Nat)
  | [] => none
  | b :: rest =>
    if b = 0 then some ([], rest)
    else (readASCIIZ rest).map fun (str, s1) => (b :: str, s1)

/-! ## Little-endian writers (from `encoder` in the source) -/

def writeU8 (v : Nat) : List Nat := [v % 256]

def writeU16 (v : Nat) : List Nat := [v % 256, v / 256 % 256]

def writeU32 (v : Nat) : List Nat :=
  [v % 256, v / 256 % 256, v / 65536 % 256, v / 16777216 % 256]

def writeBool8 (v : Bool) : List Nat := if v then [1] else [0]

/-- `writeASCIIZ`: the raw bytes followed by a zero terminator. -/
def writeASCIIZ (str : List Nat) : List Nat := str ++ [0]

/-! ## Read/write round-trip lemmas for the primitives -/

theorem readU8_roundtrip {s rest : List Nat} {v : Nat}
    (hwf : WFStream s) (h : readU8 s = some (v, rest)) :
    writeU8 v ++ rest = s ∧ v < 256 ∧ WFStream rest := by
  cases s with
  | nil => simp [readU8] at h
  | cons b t =>
    simp only [readU8, Option.some.injEq, Prod.mk.injEq] at h
    obtain ⟨rfl, rfl⟩ := h
    refine ⟨?_, hwf.head, hwf.tail⟩
    simp [writeU8, Nat.mod_eq_of_lt hwf.head]

theorem readU16_roundtrip {s rest : List Nat} {v : Nat}
    (hwf : WFStream s) (h : readU16 s = some (v, rest)) :
    writeU16 v ++ rest = s ∧ v < 65536 ∧ WFStream rest := by
  unfold readU16 at h
  cases h0 : readU8 s with
  | none => rw [h0] at h; simp at h
  | some p0 =>
    obtain ⟨b0, s1⟩ := p0
    rw [h0] at h
    simp only [Option.some_bind] at h
    cases h1 : readU8 s1 with
    | none => rw [h1] at h; simp at h
    | some p1 =>
      obtain ⟨b1, s2⟩ := p1
      rw [h1] at h
      simp only [Option.map_some', Option.some.injEq, Prod.mk.injEq] at h
      obtain ⟨rfl, rfl⟩ := h
      obtain ⟨e0, hb0, hwf1⟩ := readU8_roundtrip hwf h0
      obtain ⟨e1, hb1, hwf2⟩ := readU8_roundtrip hwf1 h1
      refine ⟨?_, by omega, hwf2⟩
      rw [← e0, ← e1]
      have hm0 : (b0 + 256 * b1) % 256 = b0 := by omega
      have hm1 : (b0 + 256 * b1) / 256 % 256 = b1 := by omega
      simp [writeU16, writeU8, hm0, hm1]
      omega

theorem readU32_roundtrip {s rest : List Nat} {v : Nat}
    (hwf : WFStream s) (h : readU32 s = some (v, rest)) :
    writeU32 v ++ rest = s ∧ v < 4294967296 ∧ WFStream rest := by
  unfold readU32 at h
  cases h0 : readU8 s with
  | none => rw [h0] at h; simp at h
  | some p0 =>
    obtain ⟨b0, s1⟩ := p0
    rw [h0] at h
    simp only [Option.some_bind] at h
    cases h1 : readU8 s1 with
    | none => rw [h1] at h; simp at h
    | some p1 =>
      obtain ⟨b1, s2⟩ := p1
      rw [h1] at h
      simp only [Option.some_bind] at h
      cases h2 : readU8 s2 with
      | none => rw [h2] at h; simp at h
      | some p2 =>
        obtain ⟨b2, s3⟩ := p2
        rw [h2] at h
        simp only [Option.some_bind] at h
        cases h3 : readU8 s3 with
        | none => rw [h3] at h; simp at h
        | some p3 =>
          obtain ⟨b3, s4⟩ := p3
          rw [h3] at h
          simp only [Option.map_some', Option.some.injEq, Prod.mk.injEq] at h
          obtain ⟨rfl, rfl⟩ := h
          obtain ⟨e0, hb0, hwf1⟩ := readU8_roundtrip hwf h0
          obtain ⟨e1, hb1, hwf2⟩ := readU8_roundtrip hwf1 h1
          obtain ⟨e2, hb2, hwf3⟩ := readU8_roundtrip hwf2 h2
          obtain ⟨e3, hb3, hwf4⟩ := readU8_roundtrip hwf3 h3
          refine ⟨?_, by omega, hwf4⟩
          rw [← e0, ← e1, ← e2, ← e3]
          have hm0 : (b0 + 256 * b1 + 65536 * b2 + 16777216 * b3) % 256 = b0 := by omega
          have hm1 : (b0 + 256 * b1 + 65536 * b2 + 16777216 * b3) / 256 % 256 = b1 := by
            omega
          have hm2 : (b0 + 256 * b1 + 65536 * b2 + 16777216 * b3) / 65536 % 256 = b2 := by
            omega
          have hm3 : (b0 + 256 * b1 + 65536 * b2 + 16777216 * b3) / 16777216 % 256 = b3 := by
            omega
          simp [writeU32, writeU8, hm0, hm1, hm2, hm3]
          omega

theorem readBytes_roundtrip {n : Nat} {s rest buf : List Nat}
    (hwf : WFStream s) (h : readBytes n s = some (buf, rest)) :
    buf ++ rest = s ∧ buf.length = n ∧ WFStream rest := by
  unfold readBytes at h
  split at h
  · simp only [Option.some.injEq, Prod.mk.injEq] at h
    obtain ⟨rfl, rfl⟩ := h
    exact ⟨List.take_append_drop n s, List.length_take_of_le (by assumption),
      fun x hx => hwf x (List.mem_of_mem_drop hx)⟩
  · simp at h

theorem readASCIIZ_roundtrip {s rest str : List Nat}
    (hwf : WFStream s) (h : readASCIIZ s = some (str, rest)) :
    writeASCIIZ str ++ rest = s ∧ WFStream rest := by
  induction s generalizing str with
  | nil => simp [readASCIIZ] at h
  | cons b t ih =>
    unfold readASCIIZ at h
    split at h
    · simp only [Option.some.injEq, Prod.mk.injEq] at h
      obtain ⟨rfl, rfl⟩ := h
      subst_vars
      exact ⟨rfl, hwf.tail⟩
    · cases h' : readASCIIZ t with
      | none => rw [h'] at h; simp at h
      | some p =>
        obtain ⟨str', s1⟩ := p
        rw [h'] at h
        simp only [Option.map_some', Option.some.injEq, Prod.mk.injEq] at h
        obtain ⟨rfl, rfl⟩ := h
        obtain ⟨e, hwf1⟩ := ih hwf.tail h'
        refine ⟨?_, hwf1⟩
        simp only [writeASCIIZ] at e ⊢
        simp [← e]

/-! ## Data model (from the `File` / `TextureEntry` / `MipMap` structs) -/

/-- `FileMagic = "0DHT"` as bytes. -/
def fileMagic : List Nat := [48, 68, 72, 84]

/-- `SupportedVersion = 1`. -/
def supportedVersion : Nat := 1

/-- `MipMap` descriptor. -/
structure MipMap where
  width : Nat
  height : Nat
  alwaysZero : Nat
  paxFormat : Nat
  alwaysThree : Nat
  dataOffset : Nat
  deriving Repr, DecidableEq

/-- `TextureEntry`; `averageColorF` holds the four float32 bit patterns. -/
structure TextureEntry where
  paaFile : List Nat
  mipMaps : List MipMap
  colorPaletteCount : Nat
  palettePtr : Nat
  averageColorF : List Nat
  averageColor : List Nat
  maxColor : List Nat
  clampFlags : Nat
  transparentColor : Nat
  hasMaxCtagg : Bool
  isAlpha : Bool
  isTransparent : Bool
  isAlphaNonOpaque : Bool
  mipMapCount : Nat
  paxFormat : Nat
  littleEndian : Bool
  isPAA : Bool
  paxSuffixType : Nat
  mipMapCountCopy : Nat
  paxFileSize : Nat
  deriving Repr, DecidableEq

/-- `File`. -/
structure File where
  magic : List Nat
  version : Nat
  textures : List TextureEntry
  deriving Repr, DecidableEq

/-! ## Decoder (from `read.go`: `Read`, `readTextureEntry`, `readMipMap`) -/

/-- `readMipMap`: u16 width, u16 height, u16 reserved, u8 format,
u8 reserved, u32 offset. -/
def readMipMap (s : List Nat) : Option (MipMap × List Nat) :=
  (readU16 s).bind fun (w, s1) =>
    (readU16 s1).bind fun (h, s2) =>
      (readU16 s2).bind fun (az, s3) =>
        (readU8 s3).bind fun (pf, s4) =>
          (readU8 s4).bind fun (a3, s5) =>
            (readU32 s5).map fun (off, s6) =>
              ({ width := w, height := h, alwaysZero := az, paxFormat := pf,
                 alwaysThree := a3, dataOffset := off }, s6)

/-- Run a reader exactly `n` times, collecting the results in order
(the `for i := uint32(0); i < n; i++` loops in the decoder). -/
def readCount {α : Type} (r : List Nat → Option (α × List Nat)) :
    Nat → List Nat → Option (List α × List Nat)
  | 0, s => some ([], s)
  | n + 1, s =>
    (r s).bind fun (x, s1) =>
      (readCount r n s1).map fun (xs, s2) => (x :: xs, s2)

/-- Read four float32 values (modelled as their u32 bit patterns), in order. -/
def readF32x4 (s : List Nat) : Option (List Nat × List Nat) :=
  readCount readU32 4 s

/-- First block of `readTextureEntry`: palette count, palette pointer,
four float32 (bit patterns), average color bytes, max color bytes,
clamp flags, transparent color — in source order. -/
structure EntryHead where
  paletteCount : Nat
  palettePtr : Nat
  avgF : List Nat
  avg : List Nat
  maxC : List Nat
  clampFlags : Nat
  transparent : Nat
  deriving Repr, DecidableEq

def readEntryHead (s : List Nat) : Option (EntryHead × List Nat) :=
  (readU32 s).bind fun (paletteCount, s1) =>
    (readU32 s1).bind fun (palettePtr, s2) =>
      (readF32x4 s2).bind fun (avgF, s3) =>
        (readBytes 4 s3).bind fun (avg, s4) =>
          (readBytes 4 s4).bind fun (maxC, s5) =>
            (readU32 s5).bind fun (clampFlags, s6) =>
              (readU32 s6).map fun (transparent, s7) =>
                ({ paletteCount := paletteCount, palettePtr := palettePtr,
                   avgF := avgF, avg := avg, maxC := maxC,
                   clampFlags := clampFlags, transparent := transparent }, s7)

/-- The four boolean bytes of a texture entry (`has_max_ctagg`, `is_alpha`,
`is_transparent`, `is_alpha_non_opaque`) — in source order. -/
structure EntryFlags where
  hasMax : Bool
  isAlpha : Bool
  isTransp : Bool
  isANO : Bool
  deriving Repr, DecidableEq

def readEntryFlags (rb : List Nat → Option (Bool × List Nat))
    (s : List Nat) : Option (EntryFlags × List Nat) :=
  (rb s).bind fun (hasMax, s1) =>
    (rb s1).bind fun (isAlpha, s2) =>
      (rb s2).bind fun (isTransp, s3) =>
        (rb s3).map fun (isANO, s4) =>
          ({ hasMax := hasMax, isAlpha := isAlpha,
             isTransp := isTransp, isANO := isANO }, s4)

/-- Mip count, pax format, the two boolean bytes, the zero-terminated path
and the suffix type — in source order. -/
structure EntryMeta where
  mipCount : Nat
  paxFormat : Nat
  littleEndian : Bool
  isPAA : Bool
  paaFile : List Nat
  suffixType : Nat
  deriving Repr, DecidableEq

def readEntryMeta (rb : List Nat → Option (Bool × List Nat))
    (s : List Nat) : Option (EntryMeta × List Nat) :=
  (readU32 s).bind fun (mipCount, s1) =>
    (readU32 s1).bind fun (paxFormat, s2) =>
      (rb s2).bind fun (littleEndian, s3) =>
        (rb s3).bind fun (isPAA, s4) =>
          (readASCIIZ s4).bind fun (paaFile, s5) =>
            (readU32 s5).map fun (suffixType, s6) =>
              ({ mipCount := mipCount, paxFormat := paxFormat,
                 littleEndian := littleEndian, isPAA := isPAA,
                 paaFile := paaFile, suffixType := suffixType }, s6)

/-- Assemble a `TextureEntry` from the parsed blocks (pure bookkeeping:
each field is copied from the block that read it, in source order). -/
def mkEntry (a : EntryHead) (fl : EntryFlags) (mt : EntryMeta)
    (mipCountCopy : Nat) (mips : List MipMap) (fileSize : Nat) : TextureEntry :=
  { paaFile := mt.paaFile, mipMaps := mips,
    colorPaletteCount := a.paletteCount, palettePtr := a.palettePtr,
    averageColorF := a.avgF, averageColor := a.avg, maxColor := a.maxC,
    clampFlags := a.clampFlags, transparentColor := a.transparent,
    hasMaxCtagg := fl.hasMax, isAlpha := fl.isAlpha,
    isTransparent := fl.isTransp, isAlphaNonOpaque := fl.isANO,
    mipMapCount := mt.mipCount, paxFormat := mt.paxFormat,
    littleEndian := mt.littleEndian, isPAA := mt.isPAA,
    paxSuffixType := mt.suffixType, mipMapCountCopy := mipCountCopy,
    paxFileSize := fileSize }

/-- `readTextureEntry`, parameterised over the boolean-byte reader so the
canonical variant (bytes restricted to 0/1) shares the definition. The
source instantiation is `readTextureEntry = readTextureEntryWith readBool8`.
The mip loop runs exactly `mipCountCopy` times, as in the source. -/
def readTextureEntryWith (rb : List Nat → Option (Bool × List Nat))
    (s : List Nat) : Option (TextureEntry × List Nat) :=
  (readEntryHead s).bind fun (a, s1) =>
    (readEntryFlags rb s1).bind fun (fl, s2) =>
      (readEntryMeta rb s2).bind fun (mt, s3) =>
        (readU32 s3).bind fun (mipCountCopy, s4) =>
          (readCount readMipMap mipCountCopy s4).bind fun (mips, s5) =>
            (readU32 s5).map fun (fileSize, s6) =>
              (mkEntry a fl mt mipCountCopy mips fileSize, s6)

/-- `readTextureEntry` exactly as in the source (lenient boolean bytes). -/
def readTextureEntry : List Nat → Option (TextureEntry × List Nat) :=
  readTextureEntryWith readBool8

/-- `Read`, parameterised like `readTextureEntryWith`. -/
def ReadWith (rb : List Nat → Option (Bool × List Nat))
    (s : List Nat) : Option (File × List Nat) :=
  (readBytes 4 s).bind fun (magic, s1) =>
    if magic ≠ fileMagic then none
    else
      (readU32 s1).bind fun (version, s2) =>
        if version ≠ supportedVersion then none
        else
          (readU32 s2).bind fun (textureCount, s3) =>
            (readCount (readTextureEntryWith rb) textureCount s3).map
              fun (textures, s4) =>
                ({ magic := magic, version := version, textures := textures }, s4)

/-- `Read` exactly as in the source. -/
def Read : List Nat → Option (File × List Nat) := ReadWith readBool8

/-- Spec-side canonical boolean reader: only the bytes the encoder can
produce (`0` and `1`) are accepted. Used to state the amended byte
round-trip claim. -/
def readBool8C (s : List Nat) : Option (Bool × List Nat) :=
  (readU8 s).bind fun (v, s1) =>
    if v = 0 then some (false, s1)
    else if v = 1 then some (true, s1)
    else none

/-- Canonical-boolean variant of `Read` (spec side, for the amended claim). -/
def ReadC : List Nat → Option (File × List Nat) := ReadWith readBool8C

/-! ## Encoder (from `write.go`: `Write`, `writeTextureEntry`, `writeMipMap`) -/

/-- `writeMipMap`. -/
def writeMipMap (m : MipMap) : List Nat :=
  writeU16 m.width ++ writeU16 m.height ++ writeU16 m.alwaysZero ++
    writeU8 m.paxFormat ++ writeU8 m.alwaysThree ++ writeU32 m.dataOffset

/-- `writeTextureEntry`: note the mip count fields are written verbatim from
the stored `mipMapCount` / `mipMapCountCopy` fields. -/
def writeTextureEntry (e : TextureEntry) : List Nat :=
  writeU32 e.colorPaletteCount ++ writeU32 e.palettePtr ++
    (e.averageColorF.map writeU32).flatten ++
    e.averageColor ++ e.maxColor ++
    writeU32 e.clampFlags ++ writeU32 e.transparentColor ++
    writeBool8 e.hasMaxCtagg ++ writeBool8 e.isAlpha ++
    writeBool8 e.isTransparent ++ writeBool8 e.isAlphaNonOpaque ++
    writeU32 e.mipMapCount ++ writeU32 e.paxFormat ++
    writeBool8 e.littleEndian ++ writeBool8 e.isPAA ++
    writeASCIIZ e.paaFile ++
    writeU32 e.paxSuffixType ++ writeU32 e.mipMapCountCopy ++
    (e.mipMaps.map writeMipMap).flatten ++
    writeU32 e.paxFileSize

/-- Error cases of `Write`. -/
inductive WriteErr where
  | invalidMagic
  | unsupportedVersion
  | tooManyTextures
  deriving Repr, DecidableEq

/-- The part of `Write` after the magic bytes have been emitted: version
substitution and check, then the texture count (strict bounds check), then
the entries. -/
def writeAfterMagic (magic : List Nat) (v : Nat) (ts : List TextureEntry) :
    List Nat × Option WriteErr :=
  let version := if v = 0 then supportedVersion else v
  if version ≠ supportedVersion then (magic, some .unsupportedVersion)
  else if 4294967296 ≤ ts.length then
    (magic ++ writeU32 version, some .tooManyTextures)
  else
    (magic ++ writeU32 version ++ writeU32 ts.length ++
      (ts.map writeTextureEntry).flatten, none)

/-- `Write`: returns the bytes emitted so far paired with an optional error,
mirroring the streaming `io.Writer` (bytes written before a failure stay
written; `none` means success). -/
def Write (f : File) : List Nat × Option WriteErr :=
  let magic := if f.magic = [] then fileMagic else f.magic
  if magic.length ≠ 4 then ([], some .invalidMagic)
  else writeAfterMagic magic f.version f.textures

/-! ## Round-trip lemmas: parsing then re-encoding reproduces the bytes -/

/-- The bytes `writeTextureEntry` emits for the head block. -/
def entryHeadBytes (a : EntryHead) : List Nat :=
  writeU32 a.paletteCount ++ writeU32 a.palettePtr ++
    (a.avgF.map writeU32).flatten ++ a.avg ++ a.maxC ++
    writeU32 a.clampFlags ++ writeU32 a.transparent

/-- The bytes `writeTextureEntry` emits for the four boolean flags. -/
def entryFlagsBytes (fl : EntryFlags) : List Nat :=
  writeBool8 fl.hasMax ++ writeBool8 fl.isAlpha ++ writeBool8 fl.isTransp ++
    writeBool8 fl.isANO

/-- The bytes `writeTextureEntry` emits for the meta block. -/
def entryMetaBytes (mt : EntryMeta) : List Nat :=
  writeU32 mt.mipCount ++ writeU32 mt.paxFormat ++
    writeBool8 mt.littleEndian ++ writeBool8 mt.isPAA ++
    writeASCIIZ mt.paaFile ++ writeU32 mt.suffixType

theorem writeTextureEntry_mkEntry (a : EntryHead) (fl : EntryFlags)
    (mt : EntryMeta) (cc : Nat) (mips : List MipMap) (fs : Nat) :
    writeTextureEntry (mkEntry a fl mt cc mips fs) =
      entryHeadBytes a ++ (entryFlagsBytes fl ++ (entryMetaBytes mt ++
        (writeU32 cc ++ ((mips.map writeMipMap).flatten ++ writeU32 fs)))) := by
  simp [writeTextureEntry, mkEntry, entryHeadBytes, entryFlagsBytes,
    entryMetaBytes, List.append_assoc]

theorem readBool8C_roundtrip {s rest : List Nat} {v : Bool}
    (hwf : WFStream s) (h : readBool8C s = some (v, rest)) :
    writeBool8 v ++ rest = s ∧ WFStream rest := by
  unfold readBool8C at h
  cases h0 : readU8 s with
  | none => rw [h0] at h; simp at h
  | some p0 =>
    obtain ⟨b, s1⟩ := p0
    rw [h0] at h
    simp only [Option.some_bind] at h
    obtain ⟨e0, hb, hwf1⟩ := readU8_roundtrip hwf h0
    by_cases hz : b = 0
    · subst hz
      simp only [if_pos rfl, Option.some.injEq, Prod.mk.injEq] at h
      obtain ⟨rfl, rfl⟩ := h
      exact ⟨by simpa [writeBool8, writeU8] using e0, hwf1⟩
    · rw [if_neg hz] at h
      by_cases ho : b = 1
      · subst ho
        simp only [if_pos rfl, Option.some.injEq, Prod.mk.injEq] at h
        obtain ⟨rfl, rfl⟩ := h
        exact ⟨by simpa [writeBool8, writeU8] using e0, hwf1⟩
      · rw [if_neg ho] at h; simp at h

/-- `readCount` produces exactly `n` items (the loop counter is the only
thing that controls how many records are read). -/
theorem readCount_length {α : Type} {r : List Nat → Option (α × List Nat)}
    {n : Nat} {s rest : List Nat} {xs : List α}
    (h : readCount r n s = some (xs, rest)) : xs.length = n := by
  induction n generalizing s xs with
  | zero =>
    simp only [readCount, Option.some.injEq, Prod.mk.injEq] at h
    obtain ⟨rfl, rfl⟩ := h
    rfl
  | succ n ih =>
    unfold readCount at h
    cases h0 : r s with
    | none => rw [h0] at h; simp at h
    | some p =>
      obtain ⟨x, s1⟩ := p
      rw [h0] at h
      simp only [Option.some_bind] at h
      cases h1 : readCount r n s1 with
      | none => rw [h1] at h; simp at h
      | some q =>
        obtain ⟨xs', s2⟩ := q
        rw [h1] at h
        simp only [Option.map_some', Option.some.injEq, Prod.mk.injEq] at h
        obtain ⟨rfl, rfl⟩ := h
        simp [ih h1]

/-- Generic counted-loop round trip: if each item round-trips, so does the
whole counted sequence. -/
theorem readCount_roundtrip {α : Type} {r : List Nat → Option (α × List Nat)}
    (w : α → List Nat)
    (hitem : ∀ {s rest : List Nat} {v : α}, WFStream s → r s = some (v, rest) →
      w v ++ rest = s ∧ WFStream rest)
    {n : Nat} {s rest : List Nat} {xs : List α}
    (hwf : WFStream s) (h : readCount r n s = some (xs, rest)) :
    (xs.map w).flatten ++ rest = s ∧ xs.length = n ∧ WFStream rest := by
  induction n generalizing s xs with
  | zero =>
    simp only [readCount, Option.some.injEq, Prod.mk.injEq] at h
    obtain ⟨rfl, rfl⟩ := h
    exact ⟨rfl, rfl, hwf⟩
  | succ n ih =>
    unfold readCount at h
    cases h0 : r s with
    | none => rw [h0] at h; simp at h
    | some p =>
      obtain ⟨x, s1⟩ := p
      rw [h0] at h
      simp only [Option.some_bind] at h
      cases h1 : readCount r n s1 with
      | none => rw [h1] at h; simp at h
      | some q =>
        obtain ⟨xs', s2⟩ := q
        rw [h1] at h
        simp only [Option.map_some', Option.some.injEq, Prod.mk.injEq] at h
        obtain ⟨rfl, rfl⟩ := h
        obtain ⟨e0, hwf1⟩ := hitem hwf h0
        obtain ⟨e1, hlen, hwf2⟩ := ih hwf1 h1
        refine ⟨?_, by simp [hlen], hwf2⟩
        simp only [List.map_cons, List.flatten_cons, List.append_assoc]
        rw [e1, e0]

theorem readMipMap_roundtrip {s rest : List Nat} {m : MipMap}
    (hwf : WFStream s) (h : readMipMap s = some (m, rest)) :
    writeMipMap m ++ rest = s ∧ WFStream rest := by
  unfold readMipMap at h
  cases h0 : readU16 s with
  | none => rw [h0] at h; simp at h
  | some p0 =>
    obtain ⟨w, s1⟩ := p0
    rw [h0] at h
    simp only [Option.some_bind] at h
    cases h1 : readU16 s1 with
    | none => rw [h1] at h; simp at h
    | some p1 =>
      obtain ⟨ht, s2⟩ := p1
      rw [h1] at h
      simp only [Option.some_bind] at h
      cases h2 : readU16 s2 with
      | none => rw [h2] at h; simp at h
      | some p2 =>
        obtain ⟨az, s3⟩ := p2
        rw [h2] at h
        simp only [Option.some_bind] at h
        cases h3 : readU8 s3 with
        | none => rw [h3] at h; simp at h
        | some p3 =>
          obtain ⟨pf, s4⟩ := p3
          rw [h3] at h
          simp only [Option.some_bind] at h
          cases h4 : readU8 s4 with
          | none => rw [h4] at h; simp at h
          | some p4 =>
            obtain ⟨a3, s5⟩ := p4
            rw [h4] at h
            simp only [Option.some_bind] at h
            cases h5 : readU32 s5 with
            | none => rw [h5] at h; simp at h
            | some p5 =>
              obtain ⟨off, s6⟩ := p5
              rw [h5] at h
              simp only [Option.map_some', Option.some.injEq, Prod.mk.injEq] at h
              obtain ⟨rfl, rfl⟩ := h
              obtain ⟨e0, _, hwf1⟩ := readU16_roundtrip hwf h0
              obtain ⟨e1, _, hwf2⟩ := readU16_roundtrip hwf1 h1
              obtain ⟨e2, _, hwf3⟩ := readU16_roundtrip hwf2 h2
              obtain ⟨e3, hb3, hwf4⟩ := readU8_roundtrip hwf3 h3
              obtain ⟨e4, hb4, hwf5⟩ := readU8_roundtrip hwf4 h4
              obtain ⟨e5, _, hwf6⟩ := readU32_roundtrip hwf5 h5
              refine ⟨?_, hwf6⟩
              simp only [writeMipMap, List.append_assoc]
              rw [e5, e4, e3, e2, e1, e0]

theorem readEntryHead_roundtrip {s rest : List Nat} {a : EntryHead}
    (hwf : WFStream s) (h : readEntryHead s = some (a, rest)) :
    entryHeadBytes a ++ rest = s ∧ WFStream rest := by
  unfold readEntryHead at h
  cases h0 : readU32 s with
  | none => rw [h0] at h; simp at h
  | some p0 =>
    obtain ⟨pc, s1⟩ := p0
    rw [h0] at h
    simp only [Option.some_bind] at h
    cases h1 : readU32 s1 with
    | none => rw [h1] at h; simp at h
    | some p1 =>
      obtain ⟨pp, s2⟩ := p1
      rw [h1] at h
      simp only [Option.some_bind] at h
      cases h2 : readF32x4 s2 with
      | none => rw [h2] at h; simp at h
      | some p2 =>
        obtain ⟨avgF, s3⟩ := p2
        rw [h2] at h
        simp only [Option.some_bind] at h
        cases h3 : readBytes 4 s3 with
        | none => rw [h3] at h; simp at h
        | some p3 =>
          obtain ⟨avg, s4⟩ := p3
          rw [h3] at h
          simp only [Option.some_bind] at h
          cases h4 : readBytes 4 s4 with
          | none => rw [h4] at h; simp at h
          | some p4 =>
            obtain ⟨maxC, s5⟩ := p4
            rw [h4] at h
            simp only [Option.some_bind] at h
            cases h5 : readU32 s5 with
            | none => rw [h5] at h; simp at h
            | some p5 =>
              obtain ⟨cf, s6⟩ := p5
              rw [h5] at h
              simp only [Option.some_bind] at h
              cases h6 : readU32 s6 with
              | none => rw [h6] at h; simp at h
              | some p6 =>
                obtain ⟨tc, s7⟩ := p6
                rw [h6] at h
                simp only [Option.map_some', Option.some.injEq, Prod.mk.injEq] at h
                obtain ⟨rfl, rfl⟩ := h
                obtain ⟨e0, _, hwf1⟩ := readU32_roundtrip hwf h0
                obtain ⟨e1, _, hwf2⟩ := readU32_roundtrip hwf1 h1
                obtain ⟨e2, _, hwf3⟩ := readCount_roundtrip writeU32
                  (fun hs hr => (readU32_roundtrip hs hr).imp id And.right) hwf2 h2
                obtain ⟨e3, _, hwf4⟩ := readBytes_roundtrip hwf3 h3
                obtain ⟨e4, _, hwf5⟩ := readBytes_roundtrip hwf4 h4
                obtain ⟨e5, _, hwf6⟩ := readU32_roundtrip hwf5 h5
                obtain ⟨e6, _, hwf7⟩ := readU32_roundtrip hwf6 h6
                refine ⟨?_, hwf7⟩
                simp only [entryHeadBytes, List.append_assoc]
                rw [e6, e5, e4, e3, e2, e1, e0]

theorem readEntryFlags_roundtrip {rb : List Nat → Option (Bool × List Nat)}
    (hrb : ∀ {s rest : List Nat} {v : Bool}, WFStream s → rb s = some (v, rest) →
      writeBool8 v ++ rest = s ∧ WFStream rest)
    {s rest : List Nat} {fl : EntryFlags}
    (hwf : WFStream s) (h : readEntryFlags rb s = some (fl, rest)) :
    entryFlagsBytes fl ++ rest = s ∧ WFStream rest := by
  unfold readEntryFlags at h
  cases h0 : rb s with
  | none => rw [h0] at h; simp at h
  | some p0 =>
    obtain ⟨hm, s1⟩ := p0
    rw [h0] at h
    simp only [Option.some_bind] at h
    cases h1 : rb s1 with
    | none => rw [h1] at h; simp at h
    | some p1 =>
      obtain ⟨ia, s2⟩ := p1
      rw [h1] at h
      simp only [Option.some_bind] at h
      cases h2 : rb s2 with
      | none => rw [h2] at h; simp at h
      | some p2 =>
        obtain ⟨it, s3⟩ := p2
        rw [h2] at h
        simp only [Option.some_bind] at h
        cases h3 : rb s3 with
        | none => rw [h3] at h; simp at h
        | some p3 =>
          obtain ⟨ino, s4⟩ := p3
          rw [h3] at h
          simp only [Option.map_some', Option.some.injEq, Prod.mk.injEq] at h
          obtain ⟨rfl, rfl⟩ := h
          obtain ⟨e0, hwf1⟩ := hrb hwf h0
          obtain ⟨e1, hwf2⟩ := hrb hwf1 h1
          obtain ⟨e2, hwf3⟩ := hrb hwf2 h2
          obtain ⟨e3, hwf4⟩ := hrb hwf3 h3
          refine ⟨?_, hwf4⟩
          simp only [entryFlagsBytes, List.append_assoc]
          rw [e3, e2, e1, e0]

theorem readEntryMeta_roundtrip {rb : List Nat → Option (Bool × List Nat)}
    (hrb : ∀ {s rest : List Nat} {v : Bool}, WFStream s → rb s = some (v, rest) →
      writeBool8 v ++ rest = s ∧ WFStream rest)
    {s rest : List Nat} {mt : EntryMeta}
    (hwf : WFStream s) (h : readEntryMeta rb s = some (mt, rest)) :
    entryMetaBytes mt ++ rest = s ∧ WFStream rest := by
  unfold readEntryMeta at h
  cases h4 : readU32 s with
  | none => rw [h4] at h; simp at h
  | some p4 =>
    obtain ⟨mc, s5⟩ := p4
    rw [h4] at h
    simp only [Option.some_bind] at h
    cases h5 : readU32 s5 with
    | none => rw [h5] at h; simp at h
    | some p5 =>
      obtain ⟨pf, s6⟩ := p5
      rw [h5] at h
      simp only [Option.some_bind] at h
      cases h6 : rb s6 with
      | none => rw [h6] at h; simp at h
      | some p6 =>
        obtain ⟨le, s7⟩ := p6
        rw [h6] at h
        simp only [Option.some_bind] at h
        cases h7 : rb s7 with
        | none => rw [h7] at h; simp at h
        | some p7 =>
          obtain ⟨ip, s8⟩ := p7
          rw [h7] at h
          simp only [Option.some_bind] at h
          cases h8 : readASCIIZ s8 with
          | none => rw [h8] at h; simp at h
          | some p8 =>
            obtain ⟨pa, s9⟩ := p8
            rw [h8] at h
            simp only [Option.some_bind] at h
            cases h9 : readU32 s9 with
            | none => rw [h9] at h; simp at h
            | some p9 =>
              obtain ⟨st, s10⟩ := p9
              rw [h9] at h
              simp only [Option.map_some', Option.some.injEq, Prod.mk.injEq] at h
              obtain ⟨rfl, rfl⟩ := h
              obtain ⟨e4, _, hwf5⟩ := readU32_roundtrip hwf h4
              obtain ⟨e5, _, hwf6⟩ := readU32_roundtrip hwf5 h5
              obtain ⟨e6, hwf7⟩ := hrb hwf6 h6
              obtain ⟨e7, hwf8⟩ := hrb hwf7 h7
              obtain ⟨e8, hwf9⟩ := readASCIIZ_roundtrip hwf8 h8
              obtain ⟨e9, _, hwf10⟩ := readU32_roundtrip hwf9 h9
              refine ⟨?_, hwf10⟩
              simp only [entryMetaBytes, List.append_assoc]
              rw [e9, e8, e7, e6, e5, e4]

/-- Entry-level round trip for the canonical-boolean parse. -/
theorem readTextureEntryC_roundtrip {s rest : List Nat} {e : TextureEntry}
    (hwf : WFStream s)
    (h : readTextureEntryWith readBool8C s = some (e, rest)) :
    writeTextureEntry e ++ rest = s ∧ WFStream rest := by
  unfold readTextureEntryWith at h
  cases h0 : readEntryHead s with
  | none => rw [h0] at h; simp at h
  | some p0 =>
    obtain ⟨a, s1⟩ := p0
    rw [h0] at h
    simp only [Option.some_bind] at h
    cases h1 : readEntryFlags readBool8C s1 with
    | none => rw [h1] at h; simp at h
    | some p1 =>
      obtain ⟨fl, s2⟩ := p1
      rw [h1] at h
      simp only [Option.some_bind] at h
      cases h1' : readEntryMeta readBool8C s2 with
      | none => rw [h1'] at h; simp at h
      | some p1' =>
        obtain ⟨mt, s2'⟩ := p1'
        rw [h1'] at h
        simp only [Option.some_bind] at h
        cases h2 : readU32 s2' with
        | none => rw [h2] at h; simp at h
        | some p2 =>
          obtain ⟨cc, s3⟩ := p2
          rw [h2] at h
          simp only [Option.some_bind] at h
          cases h3 : readCount readMipMap cc s3 with
          | none => rw [h3] at h; simp at h
          | some p3 =>
            obtain ⟨mips, s4⟩ := p3
            rw [h3] at h
            simp only [Option.some_bind] at h
            cases h4 : readU32 s4 with
            | none => rw [h4] at h; simp at h
            | some p4 =>
              obtain ⟨fs, s5⟩ := p4
              rw [h4] at h
              simp only [Option.map_some', Option.some.injEq, Prod.mk.injEq] at h
              obtain ⟨rfl, rfl⟩ := h
              obtain ⟨e0, hwf1⟩ := readEntryHead_roundtrip hwf h0
              obtain ⟨e1, hwf2⟩ := readEntryFlags_roundtrip
                (fun hs hr => readBool8C_roundtrip hs hr) hwf1 h1
              obtain ⟨e1', hwf2'⟩ := readEntryMeta_roundtrip
                (fun hs hr => readBool8C_roundtrip hs hr) hwf2 h1'
              obtain ⟨e2, _, hwf3⟩ := readU32_roundtrip hwf2' h2
              obtain ⟨e3, _, hwf4⟩ := readCount_roundtrip writeMipMap
                (fun hs hr => readMipMap_roundtrip hs hr) hwf3 h3
              obtain ⟨e4, _, hwf5⟩ := readU32_roundtrip hwf4 h4
              refine ⟨?_, hwf5⟩
              rw [writeTextureEntry_mkEntry, List.append_assoc, List.append_assoc,
                List.append_assoc, List.append_assoc, List.append_assoc]
              rw [e4, e3, e2, e1', e1, e0]

/-! ## The canonical parse refines the source parse -/

theorem readBool8C_le {s : List Nat} {x : Bool × List Nat}
    (h : readBool8C s = some x) : readBool8 s = some x := by
  unfold readBool8C at h
  cases s with
  | nil => simp [readU8] at h
  | cons b t =>
    simp only [readU8, Option.some_bind] at h
    unfold readBool8 readU8
    by_cases hz : b = 0
    · subst hz
      simp only [if_pos rfl, Option.some.injEq] at h
      simp [← h]
    · rw [if_neg hz] at h
      by_cases ho : b = 1
      · subst ho
        simp only [if_pos rfl, Option.some.injEq] at h
        simp [← h]
      · rw [if_neg ho] at h; simp at h

theorem readCount_mono {α : Type} {r₁ r₂ : List Nat → Option (α × List Nat)}
    (hr : ∀ {s : List Nat} {x : α × List Nat}, r₁ s = some x → r₂ s = some x)
    {n : Nat} {s : List Nat} {y : List α × List Nat}
    (h : readCount r₁ n s = some y) : readCount r₂ n s = some y := by
  induction n generalizing s y with
  | zero => simpa [readCount] using h
  | succ n ih =>
    unfold readCount at h ⊢
    cases h0 : r₁ s with
    | none => rw [h0] at h; simp at h
    | some p =>
      obtain ⟨x, s1⟩ := p
      rw [h0] at h
      simp only [Option.some_bind] at h
      rw [hr h0]
      simp only [Option.some_bind]
      cases h1 : readCount r₁ n s1 with
      | none => rw [h1] at h; simp at h
      | some q =>
        rw [h1] at h
        rw [ih h1]
        exact h

theorem readEntryFlags_mono {rb₁ rb₂ : List Nat → Option (Bool × List Nat)}
    (hr : ∀ {s : List Nat} {x : Bool × List Nat}, rb₁ s = some x → rb₂ s = some x)
    {s : List Nat} {y : EntryFlags × List Nat}
    (h : readEntryFlags rb₁ s = some y) : readEntryFlags rb₂ s = some y := by
  unfold readEntryFlags at h ⊢
  cases h0 : rb₁ s with
  | none => rw [h0] at h; simp at h
  | some p0 =>
    obtain ⟨v0, s1⟩ := p0
    rw [h0] at h
    rw [hr h0]
    simp only [Option.some_bind] at h ⊢
    cases h1 : rb₁ s1 with
    | none => rw [h1] at h; simp at h
    | some p1 =>
      obtain ⟨v1, s2⟩ := p1
      rw [h1] at h
      rw [hr h1]
      simp only [Option.some_bind] at h ⊢
      cases h2 : rb₁ s2 with
      | none => rw [h2] at h; simp at h
      | some p2 =>
        obtain ⟨v2, s3⟩ := p2
        rw [h2] at h
        rw [hr h2]
        simp only [Option.some_bind] at h ⊢
        cases h3 : rb₁ s3 with
        | none => rw [h3] at h; simp at h
        | some p3 =>
          obtain ⟨v3, s4⟩ := p3
          rw [h3] at h
          rw [hr h3]
          exact h

theorem readEntryMeta_mono {rb₁ rb₂ : List Nat → Option (Bool × List Nat)}
    (hr : ∀ {s : List Nat} {x : Bool × List Nat}, rb₁ s = some x → rb₂ s = some x)
    {s : List Nat} {y : EntryMeta × List Nat}
    (h : readEntryMeta rb₁ s = some y) : readEntryMeta rb₂ s = some y := by
  unfold readEntryMeta at h ⊢
  cases h0 : readU32 s with
  | none => rw [h0] at h; simp at h
  | some p0 =>
    obtain ⟨mc, s1⟩ := p0
    rw [h0] at h
    simp only [Option.some_bind] at h ⊢
    cases h1 : readU32 s1 with
    | none => rw [h1] at h; simp at h
    | some p1 =>
      obtain ⟨pf, s2⟩ := p1
      rw [h1] at h
      simp only [Option.some_bind] at h ⊢
      cases h2 : rb₁ s2 with
      | none => rw [h2] at h; simp at h
      | some p2 =>
        obtain ⟨le, s3⟩ := p2
        rw [h2] at h
        rw [hr h2]
        simp only [Option.some_bind] at h ⊢
        cases h3 : rb₁ s3 with
        | none => rw [h3] at h; simp at h
        | some p3 =>
          obtain ⟨ip, s4⟩ := p3
          rw [h3] at h
          rw [hr h3]
          exact h

theorem readTextureEntryWith_mono
    {rb₁ rb₂ : List Nat → Option (Bool × List Nat)}
    (hr : ∀ {s : List Nat} {x : Bool × List Nat}, rb₁ s = some x → rb₂ s = some x)
    {s : List Nat} {y : TextureEntry × List Nat}
    (h : readTextureEntryWith rb₁ s = some y) :
    readTextureEntryWith rb₂ s = some y := by
  unfold readTextureEntryWith at h ⊢
  cases h0 : readEntryHead s with
  | none => rw [h0] at h; simp at h
  | some p0 =>
    obtain ⟨a, s1⟩ := p0
    rw [h0] at h
    simp only [Option.some_bind] at h ⊢
    cases h1 : readEntryFlags rb₁ s1 with
    | none => rw [h1] at h; simp at h
    | some p1 =>
      obtain ⟨fl, s2⟩ := p1
      rw [h1] at h
      rw [readEntryFlags_mono hr h1]
      simp only [Option.some_bind] at h ⊢
      cases h2 : readEntryMeta rb₁ s2 with
      | none => rw [h2] at h; simp at h
      | some p2 =>
        obtain ⟨mt, s3⟩ := p2
        rw [h2] at h
        rw [readEntryMeta_mono hr h2]
        exact h

theorem ReadWith_mono {rb₁ rb₂ : List Nat → Option (Bool × List Nat)}
    (hr : ∀ {s : List Nat} {x : Bool × List Nat}, rb₁ s = some x → rb₂ s = some x)
    {s : List Nat} {y : File × List Nat}
    (h : ReadWith rb₁ s = some y) : ReadWith rb₂ s = some y := by
  unfold ReadWith at h ⊢
  cases h0 : readBytes 4 s with
  | none => rw [h0] at h; simp at h
  | some p0 =>
    obtain ⟨magic, s1⟩ := p0
    rw [h0] at h
    simp only [Option.some_bind] at h ⊢
    split at h
    · simp at h
    · rw [if_neg (by assumption)]
      cases h1 : readU32 s1 with
      | none => rw [h1] at h; simp at h
      | some p1 =>
        obtain ⟨version, s2⟩ := p1
        rw [h1] at h
        simp only [Option.some_bind] at h ⊢
        split at h
        · simp at h
        · rw [if_neg (by assumption)]
          cases h2 : readU32 s2 with
          | none => rw [h2] at h; simp at h
          | some p2 =>
            obtain ⟨count, s3⟩ := p2
            rw [h2] at h
            simp only [Option.some_bind] at h ⊢
            cases h3 : readCount (readTextureEntryWith rb₁) count s3 with
            | none => rw [h3] at h; simp at h
            | some p3 =>
              rw [h3] at h
              rw [readCount_mono (fun hx => readTextureEntryWith_mono hr hx) h3]
              exact h

/-! ## C1: the byte round trip -/

/-- `Write` on a file with the fixed magic, the supported version and an
in-range texture count takes the success path. -/
theorem Write_ok (ts : List TextureEntry) (hlen : ts.length < 4294967296) :
    Write { magic := fileMagic, version := supportedVersion, textures := ts } =
      (fileMagic ++ writeU32 supportedVersion ++ writeU32 ts.length ++
        (ts.map writeTextureEntry).flatten, none) := by
  have h1 : ¬ (4294967296 ≤ ts.length) := by omega
  simp [Write, writeAfterMagic, fileMagic, supportedVersion, h1]

theorem ReadC_Write_roundtrip {B : List Nat} {f : File}
    (hwf : WFStream B) (h : ReadC B = some (f, [])) :
    Read B = some (f, []) ∧ Write f = (B, none) := by
  refine ⟨ReadWith_mono (fun hx => readBool8C_le hx) h, ?_⟩
  unfold ReadC ReadWith at h
  cases h0 : readBytes 4 B with
  | none => rw [h0] at h; simp at h
  | some p0 =>
    obtain ⟨magic, s1⟩ := p0
    rw [h0] at h
    simp only [Option.some_bind] at h
    by_cases hm : magic = fileMagic
    · rw [if_neg (by simpa using hm)] at h
      cases h1 : readU32 s1 with
      | none => rw [h1] at h; simp at h
      | some p1 =>
        obtain ⟨version, s2⟩ := p1
        rw [h1] at h
        simp only [Option.some_bind] at h
        by_cases hv : version = supportedVersion
        · rw [if_neg (by simpa using hv)] at h
          cases h2 : readU32 s2 with
          | none => rw [h2] at h; simp at h
          | some p2 =>
            obtain ⟨count, s3⟩ := p2
            rw [h2] at h
            simp only [Option.some_bind] at h
            cases h3 : readCount (readTextureEntryWith readBool8C) count s3 with
            | none => rw [h3] at h; simp at h
            | some p3 =>
              obtain ⟨textures, s4⟩ := p3
              rw [h3] at h
              simp only [Option.map_some', Option.some.injEq, Prod.mk.injEq] at h
              obtain ⟨hfile, hrest⟩ := h
              subst hrest
              obtain ⟨e0, hlen4, hwf1⟩ := readBytes_roundtrip hwf h0
              obtain ⟨e1, _, hwf2⟩ := readU32_roundtrip hwf1 h1
              obtain ⟨e2, hcount, hwf3⟩ := readU32_roundtrip hwf2 h2
              obtain ⟨e3, hlen, _⟩ := readCount_roundtrip writeTextureEntry
                (fun hs hr => readTextureEntryC_roundtrip hs hr) hwf3 h3
              subst hfile
              subst hm hv
              rw [Write_ok textures (by omega)]
              simp only [Prod.mk.injEq, and_true]
              rw [hlen, List.append_assoc, List.append_assoc]
              rw [← List.append_nil ((textures.map writeTextureEntry).flatten)]
              rw [e3, e2, e1]
              exact e0
        · rw [if_pos (by simpa using hv)] at h; simp at h
    · rw [if_pos (by simpa using hm)] at h; simp at h

/-- A decodable buffer whose `has_max_ctagg` boolean byte is `2`: the
decoder accepts any non-zero byte as `true`, the encoder writes `1`. -/
def cx1Bytes : List Nat :=
  [48, 68, 72, 84, 1, 0, 0, 0, 1, 0, 0, 0] ++
    List.replicate 40 0 ++ [2, 0, 0, 0] ++
    [0, 0, 0, 0] ++ [0, 0, 0, 0] ++ [0, 0] ++ [0] ++
    [0, 0, 0, 0] ++ [0, 0, 0, 0] ++ [0, 0, 0, 0]

/-- The file `cx1Bytes` decodes to. -/
def cx1File : File :=
  { magic := [48, 68, 72, 84], version := 1,
    textures := [{ paaFile := [], mipMaps := [],
                   colorPaletteCount := 0, palettePtr := 0,
                   averageColorF := [0, 0, 0, 0],
                   averageColor := [0, 0, 0, 0], maxColor := [0, 0, 0, 0],
                   clampFlags := 0, transparentColor := 0,
                   hasMaxCtagg := true, isAlpha := false,
                   isTransparent := false, isAlphaNonOpaque := false,
                   mipMapCount := 0, paxFormat := 0,
                   littleEndian := false, isPAA := false,
                   paxSuffixType := 0, mipMapCountCopy := 0,
                   paxFileSize := 0 }] }

/-- C1, counterexample: `cx1Bytes` is parsed by `Read` without error (and in
full), `Write` on the resulting file succeeds, yet the bytes produced differ
from `cx1Bytes` (the boolean byte `2` is re-encoded as `1`). -/
theorem c1_read_write_not_id :
    Read cx1Bytes = some (cx1File, []) ∧
      (Write cx1File).2 = none ∧ (Write cx1File).1 ≠ cx1Bytes := by
  refine ⟨by decide, by decide, by decide⟩

/-- C1 (amended): for every byte buffer `B` that the decoder parses in full
into a file `f` and whose boolean-field bytes are canonical (`0` or `1`,
i.e. the strict variant `ReadC` accepts `B`), the source decoder `Read`
produces the same file and `Write f` succeeds and reproduces `B` exactly. -/
theorem c1_roundtrip_canonical {B : List Nat} {f : File}
    (hwf : WFStream B) (h : ReadC B = some (f, [])) :
    Read B = some (f, []) ∧ Write f = (B, none) :=
  ReadC_Write_roundtrip hwf h

/-- Witness for `c1_roundtrip_canonical` at the 12-byte empty index file. -/
theorem c1_roundtrip_canonical_witness :
    Read [48, 68, 72, 84, 1, 0, 0, 0, 0, 0, 0, 0] =
        some ({ magic := [48, 68, 72, 84], version := 1, textures := [] }, []) ∧
      Write { magic := [48, 68, 72, 84], version := 1, textures := [] } =
        ([48, 68, 72, 84, 1, 0, 0, 0, 0, 0, 0, 0], none) :=
  c1_roundtrip_canonical (fun b hb => by fin_cases hb <;> omega) (by decide)

/-! ## C9: the mip loop is controlled by `mip_count_copy` alone -/

/-- C9: whenever the source decoder parses a texture entry, the number of
mip descriptors it read equals the `mip_count_copy` field; the `mip_count`
field is stored verbatim and imposes no constraint (see the witness, where
the two fields disagree and decoding still succeeds). -/
theorem c9_mips_follow_count_copy {s rest : List Nat} {e : TextureEntry}
    (h : readTextureEntry s = some (e, rest)) :
    e.mipMaps.length = e.mipMapCountCopy := by
  unfold readTextureEntry readTextureEntryWith at h
  cases h0 : readEntryHead s with
  | none => rw [h0] at h; simp at h
  | some p0 =>
    obtain ⟨a, s1⟩ := p0
    rw [h0] at h
    simp only [Option.some_bind] at h
    cases h1 : readEntryFlags readBool8 s1 with
    | none => rw [h1] at h; simp at h
    | some p1 =>
      obtain ⟨fl, s2⟩ := p1
      rw [h1] at h
      simp only [Option.some_bind] at h
      cases h2 : readEntryMeta readBool8 s2 with
      | none => rw [h2] at h; simp at h
      | some p2 =>
        obtain ⟨mt, s3⟩ := p2
        rw [h2] at h
        simp only [Option.some_bind] at h
        cases h3 : readU32 s3 with
        | none => rw [h3] at h; simp at h
        | some p3 =>
          obtain ⟨cc, s4⟩ := p3
          rw [h3] at h
          simp only [Option.some_bind] at h
          cases h4 : readCount readMipMap cc s4 with
          | none => rw [h4] at h; simp at h
          | some p4 =>
            obtain ⟨mips, s5⟩ := p4
            rw [h4] at h
            simp only [Option.some_bind] at h
            cases h5 : readU32 s5 with
            | none => rw [h5] at h; simp at h
            | some p5 =>
              obtain ⟨fs, s6⟩ := p5
              rw [h5] at h
              simp only [Option.map_some', Option.some.injEq, Prod.mk.injEq] at h
              obtain ⟨hfile, _⟩ := h
              subst hfile
              simpa [mkEntry] using readCount_length h4

/-- An entry byte stream whose `mip_count` field is `5` while
`mip_count_copy` is `0` (and the mip list is empty). -/
def c9Bytes : List Nat :=
  List.replicate 40 0 ++ [0, 0, 0, 0] ++ [5, 0, 0, 0] ++
    [0, 0, 0, 0] ++ [0, 0] ++ [0] ++ [0, 0, 0, 0] ++ [0, 0, 0, 0] ++
    [0, 0, 0, 0]

/-- The entry `c9Bytes` decodes to: the disagreeing counts are both kept. -/
def c9Entry : TextureEntry :=
  { paaFile := [], mipMaps := [],
    colorPaletteCount := 0, palettePtr := 0,
    averageColorF := [0, 0, 0, 0],
    averageColor := [0, 0, 0, 0], maxColor := [0, 0, 0, 0],
    clampFlags := 0, transparentColor := 0,
    hasMaxCtagg := false, isAlpha := false,
    isTransparent := false, isAlphaNonOpaque := false,
    mipMapCount := 5, paxFormat := 0,
    littleEndian := false, isPAA := false,
    paxSuffixType := 0, mipMapCountCopy := 0,
    paxFileSize := 0 }

/-- Witness for `c9_mips_follow_count_copy`: a stream whose two count
fields disagree (`mip_count = 5`, `mip_count_copy = 0`) still decodes
successfully, and the mip list length follows `mip_count_copy`. -/
theorem c9_mips_follow_count_copy_witness :
    readTextureEntry c9Bytes = some (c9Entry, []) ∧
      c9Entry.mipMaps.length = c9Entry.mipMapCountCopy ∧
      c9Entry.mipMapCount = 5 ∧ c9Entry.mipMapCountCopy = 0 :=
  ⟨by decide, @c9_mips_follow_count_copy c9Bytes [] c9Entry (by decide),
    by decide, by decide⟩

/-! ## C2: count fields at encode time -/

/-- `Write` with valid header but an out-of-range texture count stops with
the dedicated bounds error after magic and version. -/
theorem Write_overflow (ts : List TextureEntry) (h : 4294967296 ≤ ts.length) :
    Write { magic := fileMagic, version := supportedVersion, textures := ts } =
      (fileMagic ++ writeU32 supportedVersion, some WriteErr.tooManyTextures) := by
  simp [Write, writeAfterMagic, fileMagic, supportedVersion, h]

theorem length_flatten_map_writeU32 (xs : List Nat) :
    ((xs.map writeU32).flatten).length = 4 * xs.length := by
  induction xs with
  | nil => rfl
  | cons x t ih => simp [writeU32, ih]; omega

/-- The entry used in the C2 counterexample: stored `mipMapCount = 7`
with an empty mip list. -/
def c2Entry : TextureEntry :=
  { paaFile := [], mipMaps := [],
    colorPaletteCount := 0, palettePtr := 0,
    averageColorF := [0, 0, 0, 0],
    averageColor := [0, 0, 0, 0], maxColor := [0, 0, 0, 0],
    clampFlags := 0, transparentColor := 0,
    hasMaxCtagg := false, isAlpha := false,
    isTransparent := false, isAlphaNonOpaque := false,
    mipMapCount := 7, paxFormat := 0,
    littleEndian := false, isPAA := false,
    paxSuffixType := 0, mipMapCountCopy := 0,
    paxFileSize := 0 }

def c2File : File :=
  { magic := fileMagic, version := supportedVersion, textures := [c2Entry] }

/-- C2, counterexample: encoding a file whose only entry stores
`mipMapCount = 7` over an empty mip list succeeds with no bounds error, and
decoding the produced bytes recovers `mipMapCount = 7` — the on-disk mip
count was written verbatim from the stored field, not derived from the mip
list length (which is 0). -/
theorem c2_mip_count_verbatim_cx :
    (Write c2File).2 = none ∧
      Read (Write c2File).1 = some (c2File, []) ∧
      c2Entry.mipMapCount = 7 ∧ c2Entry.mipMaps.length = 0 := by
  refine ⟨by decide, by decide, by decide, by decide⟩

/-- C2 (amended): the on-disk texture count is derived from the length of
`textures` — with the dedicated `tooManyTextures` bounds error, after the
magic and version bytes, when the length does not fit 32 bits — while the
per-entry on-disk mip count fields are written verbatim from the stored
`mipMapCount` / `mipMapCountCopy` fields (at byte offsets 44 and
`59 + |path|` of the entry), with no derivation from the mip list length
and no bounds check. -/
theorem c2_counts_amended (f : File) (e : TextureEntry)
    (hm : f.magic = fileMagic) (hv : f.version = supportedVersion)
    (h4 : e.averageColorF.length = 4) (h4' : e.averageColor.length = 4)
    (h4'' : e.maxColor.length = 4) :
    (4294967296 ≤ f.textures.length →
      Write f = (fileMagic ++ writeU32 supportedVersion,
        some WriteErr.tooManyTextures)) ∧
    (f.textures.length < 4294967296 →
      Write f = (fileMagic ++ writeU32 supportedVersion ++
        writeU32 f.textures.length ++
        (f.textures.map writeTextureEntry).flatten, none)) ∧
    (∃ pre post, writeTextureEntry e = pre ++ writeU32 e.mipMapCount ++ post ∧
      pre.length = 44) ∧
    (∃ pre post,
      writeTextureEntry e = pre ++ writeU32 e.mipMapCountCopy ++ post ∧
      pre.length = 59 + e.paaFile.length) := by
  obtain ⟨m, v, ts⟩ := f
  simp only at hm hv
  subst hm hv
  refine ⟨fun h => Write_overflow ts h, fun h => Write_ok ts h, ?_, ?_⟩
  · refine ⟨writeU32 e.colorPaletteCount ++ writeU32 e.palettePtr ++
      (e.averageColorF.map writeU32).flatten ++ e.averageColor ++ e.maxColor ++
      writeU32 e.clampFlags ++ writeU32 e.transparentColor ++
      writeBool8 e.hasMaxCtagg ++ writeBool8 e.isAlpha ++
      writeBool8 e.isTransparent ++ writeBool8 e.isAlphaNonOpaque,
      writeU32 e.paxFormat ++ writeBool8 e.littleEndian ++ writeBool8 e.isPAA ++
      writeASCIIZ e.paaFile ++ writeU32 e.paxSuffixType ++
      writeU32 e.mipMapCountCopy ++ (e.mipMaps.map writeMipMap).flatten ++
      writeU32 e.paxFileSize, ?_, ?_⟩
    · simp [writeTextureEntry, List.append_assoc]
    · simp only [List.length_append, length_flatten_map_writeU32, h4, h4', h4'']
      rcases e.hasMaxCtagg <;> rcases e.isAlpha <;> rcases e.isTransparent <;>
        rcases e.isAlphaNonOpaque <;> simp [writeU32, writeBool8]
  · refine ⟨writeU32 e.colorPaletteCount ++ writeU32 e.palettePtr ++
      (e.averageColorF.map writeU32).flatten ++ e.averageColor ++ e.maxColor ++
      writeU32 e.clampFlags ++ writeU32 e.transparentColor ++
      writeBool8 e.hasMaxCtagg ++ writeBool8 e.isAlpha ++
      writeBool8 e.isTransparent ++ writeBool8 e.isAlphaNonOpaque ++
      writeU32 e.mipMapCount ++ writeU32 e.paxFormat ++
      writeBool8 e.littleEndian ++ writeBool8 e.isPAA ++
      writeASCIIZ e.paaFile ++ writeU32 e.paxSuffixType,
      (e.mipMaps.map writeMipMap).flatten ++ writeU32 e.paxFileSize, ?_, ?_⟩
    · simp [writeTextureEntry, List.append_assoc]
    · simp only [List.length_append, length_flatten_map_writeU32, h4, h4', h4'']
      rcases e.hasMaxCtagg <;> rcases e.isAlpha <;> rcases e.isTransparent <;>
        rcases e.isAlphaNonOpaque <;> rcases e.littleEndian <;> rcases e.isPAA <;>
        simp [writeU32, writeBool8, writeASCIIZ] <;> omega

/-- Witness for `c2_counts_amended` at `c2File` / `c2Entry`. -/
theorem c2_counts_amended_witness :
    (4294967296 ≤ c2File.textures.length →
      Write c2File = (fileMagic ++ writeU32 supportedVersion,
        some WriteErr.tooManyTextures)) ∧
    (c2File.textures.length < 4294967296 →
      Write c2File = (fileMagic ++ writeU32 supportedVersion ++
        writeU32 c2File.textures.length ++
        (c2File.textures.map writeTextureEntry).flatten, none)) ∧
    (∃ pre post,
      writeTextureEntry c2Entry = pre ++ writeU32 c2Entry.mipMapCount ++ post ∧
      pre.length = 44) ∧
    (∃ pre post,
      writeTextureEntry c2Entry =
        pre ++ writeU32 c2Entry.mipMapCountCopy ++ post ∧
      pre.length = 59 + c2Entry.paaFile.length) :=
  c2_counts_amended c2File c2Entry (by decide) (by decide) (by decide)
    (by decide) (by decide)

/-! ## C3: magic handling at encode time -/

def c3File : File := { magic := [88, 88, 88, 88], version := 1, textures := [] }

/-- C3, counterexample: a file whose magic is non-empty, four bytes long and
different from the fixed tag (`"XXXX"`) is encoded successfully — `Write`
only checks the length of the magic, not its value. -/
theorem c3_mismatched_magic_written :
    c3File.magic ≠ [] ∧ c3File.magic ≠ fileMagic ∧
      Write c3File = ([88, 88, 88, 88, 1, 0, 0, 0, 0, 0, 0, 0], none) := by
  refine ⟨by decide, by decide, by decide⟩

/-- Whatever `writeAfterMagic` does, the emitted bytes start with the magic
it was given and the error is never `invalidMagic`. -/
theorem writeAfterMagic_take4 (m : List Nat) (v : Nat) (ts : List TextureEntry)
    (hlen : m.length = 4) :
    (writeAfterMagic m v ts).1.take 4 = m ∧
      (writeAfterMagic m v ts).2 ≠ some WriteErr.invalidMagic := by
  have htake : ∀ t : List Nat, (m ++ t).take 4 = m := by
    intro t
    rw [List.take_append_eq_append_take, hlen]
    simp [List.take_of_length_le (le_of_eq hlen)]
  unfold writeAfterMagic
  by_cases hv0 : (if v = 0 then supportedVersion else v) ≠ supportedVersion
  · rw [if_pos hv0]
    exact ⟨by simpa using List.take_of_length_le (le_of_eq hlen), by simp⟩
  · rw [if_neg hv0]
    by_cases hbig : 4294967296 ≤ ts.length
    · rw [if_pos hbig]
      exact ⟨htake _, by simp⟩
    · rw [if_neg hbig]
      refine ⟨?_, by simp⟩
      rw [List.append_assoc, List.append_assoc]
      exact htake _

/-- C3 (amended): an empty magic is replaced by the fixed tag (the output
starts with `"0DHT"`); a non-empty magic whose length is not 4 is rejected
with `invalidMagic` before anything is written; any 4-byte magic — matching
the tag or not — passes the check and is written as the first four output
bytes. -/
theorem c3_magic_amended (f : File) :
    (f.magic = [] → (Write f).1.take 4 = fileMagic) ∧
    (f.magic ≠ [] → f.magic.length ≠ 4 →
      Write f = ([], some WriteErr.invalidMagic)) ∧
    (f.magic.length = 4 →
      (Write f).2 ≠ some WriteErr.invalidMagic ∧ (Write f).1.take 4 = f.magic) := by
  obtain ⟨m, v, ts⟩ := f
  simp only
  refine ⟨?_, ?_, ?_⟩
  · rintro rfl
    show ((if (if ([] : List Nat) = [] then fileMagic else []).length ≠ 4
      then ([], some WriteErr.invalidMagic)
      else writeAfterMagic (if ([] : List Nat) = [] then fileMagic else []) v ts)).1.take 4 =
        fileMagic
    rw [if_pos rfl, if_neg (by decide)]
    exact (writeAfterMagic_take4 fileMagic v ts (by decide)).1
  · intro hne hlen
    show (if (if m = [] then fileMagic else m).length ≠ 4
      then ([], some WriteErr.invalidMagic)
      else writeAfterMagic (if m = [] then fileMagic else m) v ts) =
        ([], some WriteErr.invalidMagic)
    rw [if_neg hne, if_pos hlen]
  · intro hlen
    have hne : m ≠ [] := by
      intro h; subst h; simp at hlen
    show ((if (if m = [] then fileMagic else m).length ≠ 4
      then ([], some WriteErr.invalidMagic)
      else writeAfterMagic (if m = [] then fileMagic else m) v ts)).2 ≠
        some WriteErr.invalidMagic ∧
      ((if (if m = [] then fileMagic else m).length ≠ 4
        then ([], some WriteErr.invalidMagic)
        else writeAfterMagic (if m = [] then fileMagic else m) v ts)).1.take 4 = m
    rw [if_neg hne, if_neg (by simp [hlen])]
    exact ⟨(writeAfterMagic_take4 m v ts hlen).2, (writeAfterMagic_take4 m v ts hlen).1⟩

/-- Witness for `c3_magic_amended`, combining applications at an
empty-magic file, a 1-byte-magic file and the 4-byte `"XXXX"` file. -/
theorem c3_magic_amended_witness :
    (Write { magic := [], version := 1, textures := [] }).1.take 4 = fileMagic ∧
      Write { magic := [88], version := 1, textures := [] } =
        ([], some WriteErr.invalidMagic) ∧
      (Write c3File).2 ≠ some WriteErr.invalidMagic ∧
      (Write c3File).1.take 4 = c3File.magic :=
  ⟨(c3_magic_amended { magic := [], version := 1, textures := [] }).1 rfl,
    (c3_magic_amended { magic := [88], version := 1, textures := [] }).2.1
      (by decide) (by decide),
    (c3_magic_amended c3File).2.2 (by decide)⟩

/-! ## C6: worker-count resolution (from `build.go`) -/

/-- `WorkersAuto = -1`. -/
def workersAuto : Int := -1

/-- The loop of `floorPow2`: `p := 1; for p<<1 <= v { p <<= 1 }`.
The `0 < p` guard only serves termination; the source always starts the
loop at `p = 1` so it never takes effect. -/
def floorPow2Aux (v : Nat) (p : Nat) : Nat :=
  if h : 0 < p ∧ p * 2 ≤ v then floorPow2Aux v (p * 2) else p
termination_by v - p
decreasing_by omega

/-- `floorPow2`: the largest power of two not greater than `v` (`1` for
`v ≤ 1`). -/
def floorPow2 (v : Nat) : Nat :=
  if v ≤ 1 then 1 else floorPow2Aux v 1

/-- `autoBuildWorkers`: `GOMAXPROCS/4`, floored to at least 2, capped at the
file count, rounded down to a power of two. Host parallelism is passed in
as `gomaxprocs`. -/
def autoBuildWorkers (gomaxprocs fileCount : Nat) : Nat :=
  floorPow2 (min (max (gomaxprocs / 4) 2) fileCount)

/-- `resolveBuildWorkers`. -/
def resolveBuildWorkers (gomaxprocs : Nat) (requested : Int) (fileCount : Nat) :
    Nat :=
  if fileCount ≤ 1 then 1
  else if requested = workersAuto then autoBuildWorkers gomaxprocs fileCount
  else if requested ≤ 1 then 1
  else min requested.toNat fileCount

/-- `r` is the largest power of two not exceeding `v`. -/
def IsFloorPow2 (r v : Nat) : Prop := (∃ k, r = 2 ^ k) ∧ r ≤ v ∧ v < 2 * r

theorem floorPow2Aux_spec (d : Nat) : ∀ v p, v - p ≤ d → 0 < p → p ≤ v →
    (∃ j, p = 2 ^ j) → IsFloorPow2 (floorPow2Aux v p) v := by
  induction d with
  | zero =>
    intro v p hd hp hpv hj
    have hvp : v = p := by omega
    subst hvp
    unfold floorPow2Aux
    rw [dif_neg (by omega)]
    exact ⟨hj, le_refl _, by omega⟩
  | succ d ih =>
    intro v p hd hp hpv hj
    unfold floorPow2Aux
    by_cases h : 0 < p ∧ p * 2 ≤ v
    · rw [dif_pos h]
      obtain ⟨j, rfl⟩ := hj
      exact ih v (2 ^ j * 2) (by omega) (by positivity) h.2
        ⟨j + 1, by rw [pow_succ]⟩
    · rw [dif_neg h]
      exact ⟨hj, hpv, by omega⟩

theorem floorPow2_spec (v : Nat) (hv : 2 ≤ v) : IsFloorPow2 (floorPow2 v) v := by
  unfold floorPow2
  rw [if_neg (by omega)]
  exact floorPow2Aux_spec v v 1 (by omega) (by omega) (by omega) ⟨0, rfl⟩

/-- C6: worker-count resolution follows the claimed policy exactly: a batch
of at most one input is serial; an automatic request takes host parallelism
divided by 4, floored to at least 2, capped at the input count, rounded
down to the largest power of two not exceeding it; any other request of at
most 1 is serial; any other request is capped at the input count. -/
theorem c6_worker_resolution (gmp : Nat) (req : Int) (n : Nat) :
    (n ≤ 1 → resolveBuildWorkers gmp req n = 1) ∧
    (2 ≤ n → req = workersAuto →
      resolveBuildWorkers gmp req n = floorPow2 (min (max (gmp / 4) 2) n) ∧
      IsFloorPow2 (resolveBuildWorkers gmp req n)
        (min (max (gmp / 4) 2) n)) ∧
    (2 ≤ n → req ≠ workersAuto → req ≤ 1 →
      resolveBuildWorkers gmp req n = 1) ∧
    (2 ≤ n → req ≠ workersAuto → 2 ≤ req →
      resolveBuildWorkers gmp req n = min req.toNat n) := by
  refine ⟨?_, ?_, ?_, ?_⟩
  · intro h
    simp [resolveBuildWorkers, h]
  · intro hn hreq
    subst hreq
    have h1 : ¬ (n ≤ 1) := by omega
    constructor
    · simp [resolveBuildWorkers, autoBuildWorkers, h1]
    · have := floorPow2_spec (min (max (gmp / 4) 2) n) (by omega)
      simpa [resolveBuildWorkers, autoBuildWorkers, h1] using this
  · intro hn hne hle
    have h1 : ¬ (n ≤ 1) := by omega
    simp [resolveBuildWorkers, h1, hne, hle]
  · intro hn hne hge
    have h1 : ¬ (n ≤ 1) := by omega
    have h2 : ¬ (req ≤ 1) := by omega
    simp [resolveBuildWorkers, h1, hne, h2]

/-- Witness for `c6_worker_resolution` at the values of the source test
(`GOMAXPROCS = 20`): auto with 100 files gives 4, auto with 3 files gives
2, a single file is always serial, an explicit 8 is capped at 3 files. -/
theorem c6_worker_resolution_witness :
    resolveBuildWorkers 20 workersAuto 1 = 1 ∧
      resolveBuildWorkers 20 workersAuto 100 =
        floorPow2 (min (max (20 / 4) 2) 100) ∧
      resolveBuildWorkers 20 0 100 = 1 ∧
      resolveBuildWorkers 20 8 3 = min (Int.toNat 8) 3 :=
  ⟨(c6_worker_resolution 20 workersAuto 1).1 (by omega),
    ((c6_worker_resolution 20 workersAuto 100).2.1 (by omega) rfl).1,
    (c6_worker_resolution 20 0 100).2.2.1 (by omega) (by decide) (by omega),
    (c6_worker_resolution 20 8 3).2.2.2 (by omega) (by decide) (by omega)⟩

/-! ## C8: suffix classifier (from `suffix.go`)

Paths are byte lists; the rule tokens are ASCII, so `strings.ToLower` acts
on them exactly like the per-byte ASCII lowercase map used here. -/

/-- ASCII lowercasing of one byte. -/
def toLowerByte (b : Nat) : Nat := if 65 ≤ b ∧ b ≤ 90 then b + 32 else b

/-- The ordered rule table `suffixGuessRules` (token bytes, class code),
longest-first where tokens overlap, exactly as in the source. -/
def suffixGuessRules : List (List Nat × Nat) := [
  ([95, 110, 111, 104, 113, 95, 97, 108, 112, 104, 97], 0),
  ([95, 100, 116, 115, 109, 100, 105], 11),
  ([95, 116, 105, 95, 99, 97], 13),
  ([95, 115, 109, 100, 105], 9),
  ([95, 100, 101, 116, 97, 105, 108], 2),
  ([95, 110, 111, 114, 109, 97, 108, 109, 97, 112], 3),
  ([95, 110, 111, 104, 113], 3),
  ([95, 110, 111, 118, 104, 113], 3),
  ([95, 110, 111, 102, 104, 113], 3),
  ([95, 110, 111, 102, 101, 120], 3),
  ([95, 110, 111, 101, 120], 3),
  ([95, 110, 115, 101, 120], 3),
  ([95, 110, 115, 104, 113], 3),
  ([95, 110, 111, 112, 120], 3),
  ([95, 110, 111, 110], 3),
  ([95, 110, 111, 102], 3),
  ([95, 110, 115, 101], 3),
  ([95, 110, 115], 3),
  ([95, 110, 111], 3),
  ([95, 109, 97, 115, 107], 12),
  ([95, 115, 107, 121], 1),
  ([95, 108, 99, 111], 1),
  ([95, 100, 120, 116, 53], 1),
  ([95, 109, 99, 111], 2),
  ([95, 99, 100, 116], 2),
  ([95, 100, 116], 2),
  ([95, 109, 99], 7),
  ([95, 97, 115], 8),
  ([95, 115, 109], 9),
  ([95, 99, 97], 0),
  ([95, 99, 111], 0)]

/-- Is the byte right after a token occurrence a separator (`_`, `-`, `.`)
or the end of the string? -/
def boundaryOk (rest : List Nat) : Bool :=
  match rest with
  | [] => true
  | c :: _ => c = 95 || c = 45 || c = 46

/-- `containsTokenBoundary`: the source scans occurrences left to right via
`strings.Index`, restarting one byte later when the boundary test fails;
that is extensionally the same as testing a prefix match (plus boundary) at
every start position in order, which is the recursion used here. -/
def containsTokenBoundary (s token : List Nat) : Bool :=
  if token.isPrefixOf s ∧ boundaryOk (s.drop token.length) then true
  else
    match s with
    | [] => false
    | _ :: t => containsTokenBoundary t token

/-- `LastIndexByte` as in Go: index of the last occurrence, `-1` if none. -/
def lastIndexByte (s : List Nat) (c : Nat) : Int :=
  match s with
  | [] => -1
  | b :: t =>
    let r := lastIndexByte t c
    if 0 ≤ r then r + 1 else if b = c then 0 else -1

/-- Lowercase the path and strip from the last `'.'` onward (only when that
dot is at a positive index, as in the source's `dot > 0`). -/
def processedPath (path : List Nat) : List Nat :=
  let s := path.map toLowerByte
  let dot := lastIndexByte s 46
  if 0 < dot then s.take dot.toNat else s

/-- The first-match-wins scan over the rule table. -/
def guessLoop (rules : List (List Nat × Nat)) (s : List Nat) : Nat × Bool :=
  match rules with
  | [] => (0, false)
  | (tok, v) :: rest =>
    if containsTokenBoundary s tok then (v, true) else guessLoop rest s

/-- `GuessSuffixTypeFromPath`. -/
def GuessSuffixTypeFromPath (path : List Nat) : Nat × Bool :=
  guessLoop suffixGuessRules (processedPath path)

/-- A token occurs in `s` at a position immediately followed by a separator
byte (`_`, `-`, `.`) or by the end of the string. -/
def BoundaryOccurrence (s tok : List Nat) : Prop :=
  ∃ a b, s = a ++ tok ++ b ∧
    (b = [] ∨ ∃ c t, b = c :: t ∧ (c = 95 ∨ c = 45 ∨ c = 46))

theorem boundaryOk_iff (b : List Nat) :
    boundaryOk b = true ↔
      (b = [] ∨ ∃ c t, b = c :: t ∧ (c = 95 ∨ c = 45 ∨ c = 46)) := by
  cases b with
  | nil => simp [boundaryOk]
  | cons c t =>
    simp only [boundaryOk, List.cons.injEq, Bool.or_eq_true, decide_eq_true_eq]
    constructor
    · rintro (h | h)
      · exact Or.inr ⟨c, t, ⟨rfl, rfl⟩, by tauto⟩
      · exact Or.inr ⟨c, t, ⟨rfl, rfl⟩, by tauto⟩
    · rintro (h | ⟨c', t', ⟨rfl, rfl⟩, h⟩)
      · exact absurd h (by simp)
      · tauto

/-- A prefix match with a good boundary is a boundary occurrence at
position 0. -/
theorem ctb_found {s tok : List Nat} (hp : tok.isPrefixOf s = true)
    (hb : boundaryOk (s.drop tok.length) = true) : BoundaryOccurrence s tok := by
  obtain ⟨b, hb'⟩ := List.isPrefixOf_iff_prefix.mp hp
  refine ⟨[], b, by rw [← hb']; simp, ?_⟩
  have hd : s.drop tok.length = b := by
    rw [← hb']; exact List.drop_left tok b
  rw [hd] at hb
  exact (boundaryOk_iff b).mp hb

theorem containsTokenBoundary_iff (s tok : List Nat) :
    containsTokenBoundary s tok = true ↔ BoundaryOccurrence s tok := by
  induction s with
  | nil =>
    constructor
    · intro h
      unfold containsTokenBoundary at h
      split at h
      · rename_i hcond
        exact ctb_found hcond.1 hcond.2
      · simp at h
    · rintro ⟨a, b, hab, hbnd⟩
      have h' : a ++ (tok ++ b) = [] := by simpa using hab.symm
      simp only [List.append_eq_nil] at h'
      obtain ⟨ha, htok, hb2⟩ := h'
      subst htok
      decide
  | cons x t ih =>
    constructor
    · intro h
      unfold containsTokenBoundary at h
      split at h
      · rename_i hcond
        exact ctb_found hcond.1 hcond.2
      · obtain ⟨a, b, hab, hbnd⟩ := ih.mp h
        exact ⟨x :: a, b, by simp [hab], hbnd⟩
    · rintro ⟨a, b, hab, hbnd⟩
      unfold containsTokenBoundary
      cases a with
      | nil =>
        simp only [List.nil_append] at hab
        have hp : tok.isPrefixOf (x :: t) = true :=
          List.isPrefixOf_iff_prefix.mpr ⟨b, hab.symm⟩
        have hd : (x :: t).drop tok.length = b := by
          rw [hab]; exact List.drop_left tok b
        rw [if_pos ⟨hp, by rw [hd]; exact (boundaryOk_iff b).mpr hbnd⟩]
      | cons y a' =>
        split
        · rfl
        · apply ih.mpr
          simp only [List.cons_append, List.cons.injEq] at hab
          exact ⟨a', b, hab.2, hbnd⟩

theorem guessLoop_recognized_iff (rules : List (List Nat × Nat)) (s : List Nat) :
    (guessLoop rules s).2 = true ↔
      ∃ r ∈ rules, containsTokenBoundary s r.1 = true := by
  induction rules with
  | nil => simp [guessLoop]
  | cons r rest ih =>
    obtain ⟨tok, v⟩ := r
    unfold guessLoop
    by_cases h : containsTokenBoundary s tok = true
    · simp [h]
    · rw [if_neg (by simp [h])]
      simp only [ih, List.mem_cons]
      constructor
      · rintro ⟨r', hr', hc⟩
        exact ⟨r', Or.inr hr', hc⟩
      · rintro ⟨r', hr' | hr', hc⟩
        · subst hr'
          exact absurd hc h
        · exact ⟨r', hr', hc⟩

theorem guessLoop_default (rules : List (List Nat × Nat)) (s : List Nat)
    (h : ∀ r ∈ rules, containsTokenBoundary s r.1 = false) :
    guessLoop rules s = (0, false) := by
  induction rules with
  | nil => rfl
  | cons r rest ih =>
    obtain ⟨tok, v⟩ := r
    unfold guessLoop
    rw [if_neg (by simpa using h (tok, v) (List.mem_cons_self _ _))]
    exact ih fun r' hr' => h r' (List.mem_cons_of_mem _ hr')

/-- C8: over the lowercased, extension-stripped path, the classifier
recognizes a path exactly when some rule token occurs at a position
immediately followed by `_`, `-`, `.` or end-of-string (so a token embedded
in a longer unrelated word never matches), and when no rule matches this
way it returns the default class (diffuse sRGB, code 0) with the
unrecognized flag. -/
theorem c8_suffix_classifier (path : List Nat) :
    ((GuessSuffixTypeFromPath path).2 = true ↔
      ∃ r ∈ suffixGuessRules, BoundaryOccurrence (processedPath path) r.1) ∧
    ((∀ r ∈ suffixGuessRules, ¬ BoundaryOccurrence (processedPath path) r.1) →
      GuessSuffixTypeFromPath path = (0, false)) := by
  constructor
  · rw [GuessSuffixTypeFromPath, guessLoop_recognized_iff]
    constructor
    · rintro ⟨r, hr, hc⟩
      exact ⟨r, hr, (containsTokenBoundary_iff _ _).mp hc⟩
    · rintro ⟨r, hr, ho⟩
      exact ⟨r, hr, (containsTokenBoundary_iff _ _).mpr ho⟩
  · intro h
    exact guessLoop_default _ _ fun r hr => by
      have := h r hr
      rw [← containsTokenBoundary_iff] at this
      simpa using this

/-! ## C7: the validator (from `validate.go`)

`errors.Join` aggregates a list of violations; the model returns the list
itself (empty list = `nil` error). Each violation carries the same context
as the Go error message: entry index, mip index and the offending values. -/

inductive Violation where
  | badMagic (got : List Nat)
  | badVersion (got : Nat)
  | texCountOutOfRange (n : Nat)
  | emptyPath (i : Nat)
  | paxFormatRange (i v : Nat)
  | mipLenRange (i n : Nat)
  | mipCountMismatch (i c l : Nat)
  | mipCopyMismatch (i c l : Nat)
  | countNeqCopy (i c cc : Nat)
  | zeroDim (i j w h : Nat)
  | alwaysZeroBad (i j v : Nat)
  | alwaysThreeBad (i j v : Nat)
  | mipFormatMismatch (i j mv ev : Nat)
  | offsetDecreasing (i j off prev : Nat)
  deriving Repr, DecidableEq

def mmDefault : MipMap :=
  { width := 0, height := 0, alwaysZero := 0, paxFormat := 0,
    alwaysThree := 0, dataOffset := 0 }

/-- The mip loop of `ValidateEntry`: `j` is the mip index, `prev` the
`prevOffset` variable (0 initially, then the previous mip's offset). -/
def validateMips (i ef : Nat) : Nat → Nat → List MipMap → List Violation
  | _, _, [] => []
  | j, prev, m :: rest =>
    (if m.width = 0 ∨ m.height = 0 then [.zeroDim i j m.width m.height] else []) ++
    (if m.alwaysZero ≠ 0 then [.alwaysZeroBad i j m.alwaysZero] else []) ++
    (if m.alwaysThree ≠ 3 then [.alwaysThreeBad i j m.alwaysThree] else []) ++
    (if ef ≤ 255 ∧ m.paxFormat ≠ ef then [.mipFormatMismatch i j m.paxFormat ef]
      else []) ++
    (if 0 < j ∧ m.dataOffset < prev then [.offsetDecreasing i j m.dataOffset prev]
      else []) ++
    validateMips i ef (j + 1) m.dataOffset rest

/-- `intToU32Strict(len(entry.MipMaps))` with the source's fallback to 0 on
overflow. -/
def mipLenOf (e : TextureEntry) : Nat :=
  if e.mipMaps.length ≤ 4294967295 then e.mipMaps.length else 0

/-- `ValidateEntry`. -/
def ValidateEntry (e : TextureEntry) (i : Nat) : List Violation :=
  (if e.paaFile = [] then [.emptyPath i] else []) ++
  (if 255 < e.paxFormat then [.paxFormatRange i e.paxFormat] else []) ++
  (if 4294967295 < e.mipMaps.length then [.mipLenRange i e.mipMaps.length]
    else []) ++
  (if e.mipMapCount ≠ mipLenOf e then
    [.mipCountMismatch i e.mipMapCount (mipLenOf e)] else []) ++
  (if e.mipMapCountCopy ≠ mipLenOf e then
    [.mipCopyMismatch i e.mipMapCountCopy (mipLenOf e)] else []) ++
  (if e.mipMapCount ≠ e.mipMapCountCopy then
    [.countNeqCopy i e.mipMapCount e.mipMapCountCopy] else []) ++
  validateMips i e.paxFormat 0 0 e.mipMaps

def validateEntriesFrom (i : Nat) : List TextureEntry → List Violation
  | [] => []
  | e :: rest => ValidateEntry e i ++ validateEntriesFrom (i + 1) rest

/-- `ValidateFile` (the nil-file case of the source is not representable).
The magic check fires only for a non-empty magic, the version check only
for a non-zero version. -/
def ValidateFile (f : File) : List Violation :=
  (if f.magic ≠ [] ∧ f.magic ≠ fileMagic then [.badMagic f.magic] else []) ++
  (if f.version ≠ 0 ∧ f.version ≠ supportedVersion then [.badVersion f.version]
    else []) ++
  (if 4294967295 < f.textures.length then
    [.texCountOutOfRange f.textures.length] else []) ++
  validateEntriesFrom 0 f.textures

/-! Semantic side: the invariants as predicates and the number of violated
check instances, both phrased by index (independently of the validator's
threaded recursion). -/

/-- The `prevOffset` value the mip at index `j` is compared against. -/
def prevOffset (mips : List MipMap) (j : Nat) : Nat :=
  if j = 0 then 0 else (mips.getD (j - 1) mmDefault).dataOffset

/-- One mip's violated-check count against the spec conditions. -/
def mipViolCountAt (ef j prev : Nat) (m : MipMap) : Nat :=
  (if m.width = 0 ∨ m.height = 0 then 1 else 0) +
  (if m.alwaysZero ≠ 0 then 1 else 0) +
  (if m.alwaysThree ≠ 3 then 1 else 0) +
  (if ef ≤ 255 ∧ m.paxFormat ≠ ef then 1 else 0) +
  (if 0 < j ∧ m.dataOffset < prev then 1 else 0)

/-- One mip is invariant-clean. -/
def MipOK (ef j prev : Nat) (m : MipMap) : Prop :=
  m.width ≠ 0 ∧ m.height ≠ 0 ∧ m.alwaysZero = 0 ∧ m.alwaysThree = 3 ∧
    (ef ≤ 255 → m.paxFormat = ef) ∧ (0 < j → prev ≤ m.dataOffset)

/-- One entry's violated-check count. -/
def entryViolCount (e : TextureEntry) : Nat :=
  (if e.paaFile = [] then 1 else 0) +
  (if 255 < e.paxFormat then 1 else 0) +
  (if 4294967295 < e.mipMaps.length then 1 else 0) +
  (if e.mipMapCount ≠ mipLenOf e then 1 else 0) +
  (if e.mipMapCountCopy ≠ mipLenOf e then 1 else 0) +
  (if e.mipMapCount ≠ e.mipMapCountCopy then 1 else 0) +
  ((List.range e.mipMaps.length).map fun j =>
    mipViolCountAt e.paxFormat j (prevOffset e.mipMaps j)
      (e.mipMaps.getD j mmDefault)).sum

/-- One entry is invariant-clean. -/
def EntryOK (e : TextureEntry) : Prop :=
  e.paaFile ≠ [] ∧ e.paxFormat ≤ 255 ∧ e.mipMaps.length ≤ 4294967295 ∧
    e.mipMapCount = mipLenOf e ∧ e.mipMapCountCopy = mipLenOf e ∧
    e.mipMapCount = e.mipMapCountCopy ∧
    ∀ j < e.mipMaps.length,
      MipOK e.paxFormat j (prevOffset e.mipMaps j) (e.mipMaps.getD j mmDefault)

/-- The whole file's violated-check count. -/
def fileViolCount (f : File) : Nat :=
  (if f.magic ≠ [] ∧ f.magic ≠ fileMagic then 1 else 0) +
  (if f.version ≠ 0 ∧ f.version ≠ supportedVersion then 1 else 0) +
  (if 4294967295 < f.textures.length then 1 else 0) +
  (f.textures.map entryViolCount).sum

/-- The whole file is invariant-clean; the magic invariant applies only to
a non-empty magic and the version invariant only to a non-zero version. -/
def FileOK (f : File) : Prop :=
  (f.magic = [] ∨ f.magic = fileMagic) ∧
    (f.version = 0 ∨ f.version = supportedVersion) ∧
    f.textures.length ≤ 4294967295 ∧
    ∀ e ∈ f.textures, EntryOK e

theorem validateMips_length (i ef : Nat) (mips : List MipMap) :
    ∀ j0 prev0, (validateMips i ef j0 prev0 mips).length =
      ((List.range mips.length).map fun k =>
        mipViolCountAt ef (j0 + k)
          (if k = 0 then prev0 else (mips.getD (k - 1) mmDefault).dataOffset)
          (mips.getD k mmDefault)).sum := by
  induction mips with
  | nil => intro j0 prev0; rfl
  | cons m rest ih =>
    intro j0 prev0
    show (validateMips i ef j0 prev0 (m :: rest)).length = _
    have hstep : validateMips i ef j0 prev0 (m :: rest) =
        ((if m.width = 0 ∨ m.height = 0 then [Violation.zeroDim i j0 m.width m.height] else []) ++
        (if m.alwaysZero ≠ 0 then [Violation.alwaysZeroBad i j0 m.alwaysZero] else []) ++
        (if m.alwaysThree ≠ 3 then [Violation.alwaysThreeBad i j0 m.alwaysThree] else []) ++
        (if ef ≤ 255 ∧ m.paxFormat ≠ ef then [Violation.mipFormatMismatch i j0 m.paxFormat ef] else []) ++
        (if 0 < j0 ∧ m.dataOffset < prev0 then [Violation.offsetDecreasing i j0 m.dataOffset prev0] else [])) ++
        validateMips i ef (j0 + 1) m.dataOffset rest := by
      simp [validateMips, List.append_assoc]
    rw [hstep, List.length_append, ih (j0 + 1) m.dataOffset]
    have hblocks :
        ((if m.width = 0 ∨ m.height = 0 then [Violation.zeroDim i j0 m.width m.height] else []) ++
        (if m.alwaysZero ≠ 0 then [Violation.alwaysZeroBad i j0 m.alwaysZero] else []) ++
        (if m.alwaysThree ≠ 3 then [Violation.alwaysThreeBad i j0 m.alwaysThree] else []) ++
        (if ef ≤ 255 ∧ m.paxFormat ≠ ef then [Violation.mipFormatMismatch i j0 m.paxFormat ef] else []) ++
        (if 0 < j0 ∧ m.dataOffset < prev0 then [Violation.offsetDecreasing i j0 m.dataOffset prev0] else [])).length =
          mipViolCountAt ef j0 prev0 m := by
      simp only [List.length_append, mipViolCountAt]
      split_ifs <;> simp
    rw [hblocks]
    rw [List.length_cons, List.range_succ_eq_map, List.map_cons, List.sum_cons]
    have hhead :
        mipViolCountAt ef (j0 + 0)
          (if 0 = 0 then prev0
            else ((m :: rest).getD (0 - 1) mmDefault).dataOffset)
          ((m :: rest).getD 0 mmDefault) = mipViolCountAt ef j0 prev0 m := by
      simp
    rw [List.map_map]
    have hfun : ∀ k ∈ List.range rest.length,
        ((fun k => mipViolCountAt ef (j0 + k)
          (if k = 0 then prev0
            else ((m :: rest).getD (k - 1) mmDefault).dataOffset)
          ((m :: rest).getD k mmDefault)) ∘ Nat.succ) k =
        mipViolCountAt ef (j0 + 1 + k)
          (if k = 0 then m.dataOffset
            else (rest.getD (k - 1) mmDefault).dataOffset)
          (rest.getD k mmDefault) := by
      intro k _
      cases k with
      | zero => simp [Function.comp]
      | succ k' =>
        simp only [Function.comp, List.getD_cons_succ]
        have h1 : j0 + (k' + 1 + 1) = j0 + 1 + (k' + 1) := by omega
        have h2 : k' + 1 + 1 - 1 = k' + 1 := by omega
        have h3 : (m :: rest).getD (k' + 1) mmDefault = rest.getD k' mmDefault := by
          simp
        rw [h1, h2, h3]
        simp
    rw [List.map_congr_left hfun, hhead]

theorem ValidateEntry_length (e : TextureEntry) (i : Nat) :
    (ValidateEntry e i).length = entryViolCount e := by
  unfold ValidateEntry entryViolCount
  simp only [List.length_append]
  rw [validateMips_length i e.paxFormat e.mipMaps 0 0]
  have hmap : ∀ k ∈ List.range e.mipMaps.length,
      mipViolCountAt e.paxFormat (0 + k)
        (if k = 0 then 0
          else (e.mipMaps.getD (k - 1) mmDefault).dataOffset)
        (e.mipMaps.getD k mmDefault) =
      mipViolCountAt e.paxFormat k (prevOffset e.mipMaps k)
        (e.mipMaps.getD k mmDefault) := by
    intro k _
    simp [prevOffset]
  rw [List.map_congr_left hmap]
  split_ifs <;> simp

theorem validateEntriesFrom_length (ts : List TextureEntry) :
    ∀ i0, (validateEntriesFrom i0 ts).length = (ts.map entryViolCount).sum := by
  induction ts with
  | nil => intro i0; rfl
  | cons e rest ih =>
    intro i0
    show (ValidateEntry e i0 ++ validateEntriesFrom (i0 + 1) rest).length = _
    rw [List.length_append, ValidateEntry_length, ih (i0 + 1)]
    simp

theorem ValidateFile_length (f : File) :
    (ValidateFile f).length = fileViolCount f := by
  unfold ValidateFile fileViolCount
  simp only [List.length_append]
  rw [validateEntriesFrom_length f.textures 0]
  split_ifs <;> simp

theorem ind_eq_zero (c : Prop) [Decidable c] :
    (if c then 1 else 0) = 0 ↔ ¬c := by
  split_ifs with h <;> simp [h]

theorem mipViolCountAt_eq_zero_iff (ef j prev : Nat) (m : MipMap) :
    mipViolCountAt ef j prev m = 0 ↔ MipOK ef j prev m := by
  unfold mipViolCountAt MipOK
  simp only [Nat.add_eq_zero, ind_eq_zero]
  constructor
  · rintro ⟨⟨⟨⟨h1, h2⟩, h3⟩, h4⟩, h5⟩
    push_neg at h1 h4 h5
    exact ⟨h1.1, h1.2, by tauto, by tauto, h4, h5⟩
  · rintro ⟨h1, h2, h3, h4, h5, h6⟩
    refine ⟨⟨⟨⟨?_, by tauto⟩, by tauto⟩, ?_⟩, ?_⟩
    · push_neg
      exact ⟨h1, h2⟩
    · rintro ⟨ha, hb⟩
      exact hb (h5 ha)
    · rintro ⟨ha, hb⟩
      have := h6 ha
      omega

theorem entryViolCount_eq_zero_iff (e : TextureEntry) :
    entryViolCount e = 0 ↔ EntryOK e := by
  unfold entryViolCount EntryOK
  simp only [Nat.add_eq_zero, ind_eq_zero, List.sum_eq_zero_iff, List.mem_map,
    List.mem_range]
  constructor
  · rintro ⟨⟨⟨⟨⟨⟨h1, h2⟩, h3⟩, h4⟩, h5⟩, h6⟩, h7⟩
    refine ⟨h1, by omega, by omega, by tauto, by tauto, by tauto,
      fun j hj => ?_⟩
    exact (mipViolCountAt_eq_zero_iff _ _ _ _).mp (h7 _ ⟨j, hj, rfl⟩)
  · rintro ⟨h1, h2, h3, h4, h5, h6, h7⟩
    refine ⟨⟨⟨⟨⟨⟨h1, by omega⟩, by omega⟩, by tauto⟩, by tauto⟩, by tauto⟩, ?_⟩
    rintro x ⟨j, hj, rfl⟩
    exact (mipViolCountAt_eq_zero_iff _ _ _ _).mpr (h7 j hj)

theorem fileViolCount_eq_zero_iff (f : File) :
    fileViolCount f = 0 ↔ FileOK f := by
  unfold fileViolCount FileOK
  simp only [Nat.add_eq_zero, ind_eq_zero, List.sum_eq_zero_iff, List.mem_map]
  constructor
  · rintro ⟨⟨⟨h1, h2⟩, h3⟩, h4⟩
    refine ⟨by tauto, by tauto, by omega, fun e he => ?_⟩
    exact (entryViolCount_eq_zero_iff e).mp (h4 _ ⟨e, he, rfl⟩)
  · rintro ⟨h1, h2, h3, h4⟩
    refine ⟨⟨⟨by tauto, by tauto⟩, by omega⟩, ?_⟩
    rintro x ⟨e, he, rfl⟩
    exact (entryViolCount_eq_zero_iff e).mpr (h4 e he)

/-- C7: the validator succeeds (empty aggregate) exactly when no invariant
is violated, and in general the aggregate contains one violation per
violated check instance across all checks, entries and mips — it never
stops at the first violation; the magic invariant is gated on a non-empty
magic and the version invariant on a non-zero version (both inside
`FileOK` / `fileViolCount`). -/
theorem c7_validator (f : File) :
    (ValidateFile f = [] ↔ FileOK f) ∧
      (ValidateFile f).length = fileViolCount f := by
  have hlen := ValidateFile_length f
  refine ⟨?_, hlen⟩
  rw [← List.length_eq_zero, hlen, fileViolCount_eq_zero_iff]

/-- Witness for `c7_validator` at `c2File`, whose single entry violates
three invariants at once (empty path, count≠len, count mismatch with the
copy) — all three are collected. -/
theorem c7_validator_witness :
    ((ValidateFile c2File = [] ↔ FileOK c2File) ∧
      (ValidateFile c2File).length = fileViolCount c2File) ∧
      (ValidateFile c2File).length = 3 :=
  ⟨c7_validator c2File, by decide⟩

/-! ## Builder (from `build.go`): C4, C5, C10

Paths are byte strings (`List Nat`). Reading an asset (open/stat plus
`paa.DecodeMetadataHeaders` and the field mapping of `buildEntry`) is
I/O against external files, so it is abstracted as an oracle
`be : List Nat → Except ε TextureEntry` from the input path to the entry
built for it (or the build error); the orchestration around the oracle —
append bookkeeping, sorting, worker scheduling, slot collection, the
skip-invalid policy — is modelled from the source. -/

/-- Go string `<` on byte strings (lexicographic, byte-wise). -/
def listLt : List Nat → List Nat → Bool
  | [], [] => false
  | [], _ :: _ => true
  | _ :: _, [] => false
  | a :: as, b :: bs => if a < b then true else if b < a then false else listLt as bs

/-- The order `sort.Strings` sorts by: `x ≤ y` iff not `y < x`. -/
def goLe (x y : List Nat) : Prop := listLt y x = false

instance : DecidableRel goLe := fun x y => by unfold goLe; infer_instance

/-- Go `unicode.IsSpace` restricted to the ASCII range (paths are byte
strings; the multi-byte white-space runes of `strings.TrimSpace` do not
arise byte-wise in valid paths). -/
def isSpaceByte (b : Nat) : Bool :=
  b = 9 || b = 10 || b = 11 || b = 12 || b = 13 || b = 32

/-- `strings.TrimSpace`. -/
def trimSpace (s : List Nat) : List Nat :=
  ((s.dropWhile isSpaceByte).reverse.dropWhile isSpaceByte).reverse

/-- `BuildOptions` (`SuffixOverrides` as an association list). -/
structure BuildOptions where
  suffixOverrides : List (List Nat × Nat)
  baseDir : List Nat
  skipInvalid : Bool
  lowercasePaths : Bool
  backslashPaths : Bool
  workers : Int
  deriving Repr, DecidableEq

/-- `Builder` (issues live on the builder but are reset by `Build`;
the returned issues are modelled as part of the build result). -/
structure Builder where
  inputs : List (List Nat)
  opts : BuildOptions
  inputsSorted : Bool
  deriving Repr, DecidableEq

/-- `NewBuilder`: both path normalizations are forced on, whatever the
caller passed. -/
def NewBuilder (opts : BuildOptions) : Builder :=
  { inputs := [],
    opts := { opts with lowercasePaths := true, backslashPaths := true },
    inputsSorted := true }

/-- `Append`: reject blank paths; track whether the appended sequence is
still sorted (a later `Build` skips re-sorting when it is). -/
def Append (b : Builder) (path : List Nat) : Except Unit Builder :=
  if trimSpace path = [] then .error ()
  else
    let sorted :=
      if b.inputsSorted ∧ b.inputs ≠ [] ∧
          listLt path (b.inputs.getLastD []) = true then false
      else b.inputsSorted
    .ok { b with inputs := b.inputs ++ [path], inputsSorted := sorted }

/-- `AppendMany` (stops at the first failure, like the source). -/
def AppendMany (b : Builder) : List (List Nat) → Except Unit Builder
  | [] => .ok b
  | p :: rest =>
    match Append b p with
    | .ok b' => AppendMany b' rest
    | .error e => .error e

/-- `sort.Strings`: the unique `goLe`-sorted permutation. -/
def sortStrings (l : List (List Nat)) : List (List Nat) :=
  l.insertionSort goLe

/-- The input list `Build` actually iterates: sorted unless already
sorted. -/
def buildInputs (b : Builder) : List (List Nat) :=
  if b.inputsSorted then b.inputs else sortStrings b.inputs

/-- The all-zero `TextureEntry` (the Go zero value, which is what an
unwritten result slot would hold). -/
def entryDefault : TextureEntry :=
  { paaFile := [], mipMaps := [], colorPaletteCount := 0, palettePtr := 0,
    averageColorF := [0, 0, 0, 0], averageColor := [0, 0, 0, 0],
    maxColor := [0, 0, 0, 0], clampFlags := 0, transparentColor := 0,
    hasMaxCtagg := false, isAlpha := false, isTransparent := false,
    isAlphaNonOpaque := false, mipMapCount := 0, paxFormat := 0,
    littleEndian := false, isPAA := false, paxSuffixType := 0,
    mipMapCountCopy := 0, paxFileSize := 0 }

/-- The serial build loop over the (sorted) inputs: a failure becomes an
issue under skip-invalid, otherwise it aborts the whole build. -/
def buildLoopSerial {ε : Type} (be : List Nat → Except ε TextureEntry)
    (skip : Bool) :
    List (List Nat) → List TextureEntry → List (List Nat × ε) →
      Except (List Nat × ε) (List TextureEntry × List (List Nat × ε))
  | [], acc, iss => .ok (acc, iss)
  | p :: rest, acc, iss =>
    match be p with
    | .ok entry => buildLoopSerial be skip rest (acc ++ [entry]) iss
    | .error err =>
      if skip then buildLoopSerial be skip rest acc (iss ++ [(p, err)])
      else .error (p, err)

/-- The worker pool: each queued job index `i` makes exactly one worker
write `be inputs[i]` into slot `i`. `ord` is the order job executions
complete in, over any worker count and interleaving — slot disjointness
means the slot map depends only on which indices ran, not on the order or
on which worker ran them. -/
def runJobs {ε : Type} (be : List Nat → Except ε TextureEntry)
    (inputs : List (List Nat)) :
    List Nat → (Nat → Option (Except ε TextureEntry)) →
      Nat → Option (Except ε TextureEntry)
  | [], slots => slots
  | i :: ord, slots =>
    runJobs be inputs ord
      (fun j => if j = i then some (be (inputs.getD i [])) else slots j)

/-- The collection pass after the join: walk the inputs in index order,
reading each slot (an unwritten slot holds the Go zero values: `nil`
error and zero entry). -/
def collectLoop {ε : Type} (skip : Bool)
    (results : Nat → Option (Except ε TextureEntry)) :
    Nat → List (List Nat) → List TextureEntry → List (List Nat × ε) →
      Except (List Nat × ε) (List TextureEntry × List (List Nat × ε))
  | _, [], acc, iss => .ok (acc, iss)
  | i, p :: rest, acc, iss =>
    match (results i).getD (.ok entryDefault) with
    | .ok entry => collectLoop skip results (i + 1) rest (acc ++ [entry]) iss
    | .error err =>
      if skip then collectLoop skip results (i + 1) rest acc (iss ++ [(p, err)])
      else .error (p, err)

/-- The result of the serial path of `Build`. -/
def BuildSerial {ε : Type} (be : List Nat → Except ε TextureEntry)
    (b : Builder) :
    Except (List Nat × ε) (File × List (List Nat × ε)) :=
  (buildLoopSerial be b.opts.skipInvalid (buildInputs b) [] []).map
    fun (ts, iss) =>
      ({ magic := fileMagic, version := supportedVersion, textures := ts }, iss)

/-- `Build`: sort if needed, resolve the worker count, then either the
serial loop or the pool (dispatch all indices, join, collect in index
order). `gomaxprocs` is the host parallelism, `ord` the job completion
schedule. -/
def Build {ε : Type} (gomaxprocs : Nat) (be : List Nat → Except ε TextureEntry)
    (ord : List Nat) (b : Builder) :
    Except (List Nat × ε) (File × List (List Nat × ε)) :=
  let inputs := buildInputs b
  if resolveBuildWorkers gomaxprocs b.opts.workers inputs.length ≤ 1 then
    BuildSerial be b
  else
    let results := runJobs be inputs ord (fun _ => none)
    (collectLoop b.opts.skipInvalid results 0 inputs [] []).map
      fun (ts, iss) =>
        ({ magic := fileMagic, version := supportedVersion, textures := ts }, iss)

/-! Path normalization (`normalizePath`). `filepath.Clean` / `filepath.Rel`
/ `os.Getwd` are filesystem- and OS-dependent; the whole base-directory
resolution step is abstracted as `resolve`. The transformations after it
are modelled byte-wise from the source. -/

/-- `strings.ReplaceAll` for single-byte needle and replacement. -/
def replaceAllByte (s : List Nat) (a c : Nat) : List Nat :=
  s.map fun x => if x = a then c else x

/-- `strings.TrimPrefix`. -/
def trimPrefixList (s pre : List Nat) : List Nat :=
  if pre.isPrefixOf s then s.drop pre.length else s

/-- `normalizePath`: resolve against the base dir (abstracted), then
optionally flip `/` to `\`, strip a leading `.\`, and optionally
lowercase. The source stores the result as the entry's `PAAFile`. -/
def normalizePath (resolve : List Nat → List Nat) (opts : BuildOptions)
    (input : List Nat) : List Nat :=
  let rel := resolve input
  let rel := if opts.backslashPaths then replaceAllByte rel 47 92 else rel
  let rel := trimPrefixList rel [46, 92]
  if opts.lowercasePaths then rel.map toLowerByte else rel

/-! ## Order facts about Go string comparison -/

theorem listLt_irrefl : ∀ x, listLt x x = false
  | [] => rfl
  | a :: as => by
    unfold listLt
    rw [if_neg (by omega), if_neg (by omega)]
    exact listLt_irrefl as

theorem listLt_trans : ∀ x y z, listLt x y = true → listLt y z = true →
    listLt x z = true
  | [], [], _, hxy, _ => by simp [listLt] at hxy
  | [], _ :: _, [], _, hyz => by simp [listLt] at hyz
  | [], _ :: _, _ :: _, _, _ => rfl
  | _ :: _, [], _, hxy, _ => by simp [listLt] at hxy
  | _ :: _, _ :: _, [], _, hyz => by simp [listLt] at hyz
  | a :: as, b :: bs, c :: cs, hxy, hyz => by
    unfold listLt at hxy hyz ⊢
    by_cases hab : a < b
    · rw [if_pos hab] at hxy
      by_cases hbc : b < c
      · rw [if_pos (by omega)]
      · rw [if_neg hbc] at hyz
        by_cases hcb : c < b
        · rw [if_pos hcb] at hyz
          exact absurd hyz (by simp)
        · have hbceq : b = c := by omega
          subst hbceq
          rw [if_pos hab]
    · rw [if_neg hab] at hxy
      by_cases hba : b < a
      · rw [if_pos hba] at hxy; simp at hxy
      · rw [if_neg hba] at hxy
        have hab' : a = b := by omega
        subst hab'
        by_cases hac : a < c
        · rw [if_pos hac]
        · rw [if_neg hac] at hyz ⊢
          by_cases hca : c < a
          · rw [if_pos hca] at hyz; simp at hyz
          · rw [if_neg hca] at hyz ⊢
            exact listLt_trans as bs cs hxy hyz

theorem listLt_conn : ∀ x y, listLt x y = false → listLt y x = false → x = y
  | [], [], _, _ => rfl
  | [], _ :: _, hxy, _ => by simp [listLt] at hxy
  | _ :: _, [], _, hyx => by simp [listLt] at hyx
  | a :: as, b :: bs, hxy, hyx => by
    unfold listLt at hxy hyx
    by_cases hab : a < b
    · rw [if_pos hab] at hxy; simp at hxy
    · by_cases hba : b < a
      · rw [if_pos hba] at hyx; simp at hyx
      · rw [if_neg hab, if_neg hba] at hxy
        rw [if_neg hba, if_neg hab] at hyx
        have : a = b := by omega
        subst this
        rw [listLt_conn as bs hxy hyx]

theorem goLe_refl (x : List Nat) : goLe x x := listLt_irrefl x

instance : IsTotal (List Nat) goLe :=
  ⟨fun x y => by
    by_cases h : listLt y x = true
    · right
      unfold goLe
      cases hxy : listLt x y with
      | false => rfl
      | true =>
        have h2 := listLt_trans _ _ _ hxy h
        rw [listLt_irrefl x] at h2
        exact absurd h2 (by simp)
    · left
      exact eq_false_of_ne_true h⟩

instance : IsTrans (List Nat) goLe :=
  ⟨fun x y z hxy hyz => by
    unfold goLe at *
    cases hzx : listLt z x with
    | false => rfl
    | true =>
      exfalso
      cases hxy' : listLt x y with
      | true =>
        have h2 := listLt_trans _ _ _ hzx hxy'
        rw [h2] at hyz
        exact absurd hyz (by simp)
      | false =>
        have hxeqy := listLt_conn _ _ hxy' hxy
        subst hxeqy
        rw [hzx] at hyz
        exact absurd hyz (by simp)⟩

instance : IsAntisymm (List Nat) goLe :=
  ⟨fun x y hxy hyx => listLt_conn x y hyx hxy⟩

theorem sortStrings_sorted (l : List (List Nat)) :
    (sortStrings l).Sorted goLe :=
  List.sorted_insertionSort goLe l

theorem sortStrings_perm (l : List (List Nat)) : (sortStrings l).Perm l :=
  List.perm_insertionSort goLe l

theorem sortStrings_congr {l1 l2 : List (List Nat)} (h : l1.Perm l2) :
    sortStrings l1 = sortStrings l2 :=
  List.eq_of_perm_of_sorted
    ((sortStrings_perm l1).trans (h.trans (sortStrings_perm l2).symm))
    (sortStrings_sorted l1) (sortStrings_sorted l2)

theorem sortStrings_of_sorted {l : List (List Nat)} (h : l.Sorted goLe) :
    sortStrings l = l :=
  List.eq_of_perm_of_sorted (sortStrings_perm l) (sortStrings_sorted l) h

/-! ## The sorted-flag invariant of the builder -/

/-- When the builder's `inputsSorted` flag is set, the inputs really are
sorted. -/
def BuilderWF (b : Builder) : Prop :=
  b.inputsSorted = true → b.inputs.Sorted goLe

theorem getLastD_mem : ∀ (t : List (List Nat)) (y d : List Nat),
    (y :: t).getLastD d ∈ y :: t
  | [], y, d => by
    rw [List.getLastD_cons, List.getLastD_nil]
    exact List.mem_singleton_self y
  | z :: t', y, d => by
    rw [List.getLastD_cons]
    exact List.mem_cons_of_mem _ (getLastD_mem t' z y)

theorem mem_le_getLastD : ∀ (l : List (List Nat)) (d : List Nat),
    l.Sorted goLe → ∀ a ∈ l, goLe a (l.getLastD d)
  | [], _, _, a, ha => absurd ha (by simp)
  | x :: t, d, hs, a, ha => by
    rw [List.sorted_cons] at hs
    cases t with
    | nil =>
      simp only [List.mem_singleton] at ha
      subst ha
      rw [List.getLastD_cons, List.getLastD_nil]
      exact goLe_refl a
    | cons y t' =>
      rw [List.getLastD_cons]
      rcases List.mem_cons.mp ha with rfl | ha'
      · exact hs.1 _ (getLastD_mem t' y a)
      · exact mem_le_getLastD (y :: t') x hs.2 a ha'

theorem NewBuilder_wf (opts : BuildOptions) : BuilderWF (NewBuilder opts) :=
  fun _ => List.sorted_nil

theorem Append_ok {b b' : Builder} {p : List Nat}
    (h : Append b p = .ok b') :
    b'.inputs = b.inputs ++ [p] ∧ b'.opts = b.opts ∧
      (BuilderWF b → BuilderWF b') := by
  unfold Append at h
  split at h
  · exact absurd h (by simp)
  · simp only [Except.ok.injEq] at h
    subst h
    refine ⟨rfl, rfl, fun hwf hflag => ?_⟩
    simp only at hflag ⊢
    split at hflag
    · exact absurd hflag (by simp)
    · rename_i hcond
      have hsorted := hwf hflag
      rw [List.Sorted, List.pairwise_append]
      refine ⟨hsorted, List.sorted_singleton p, fun a ha q hq => ?_⟩
      simp only [List.mem_singleton] at hq
      rw [hq]
      by_cases hnil : b.inputs = []
      · rw [hnil] at ha; exact absurd ha (by simp)
      · have hlast : goLe (b.inputs.getLastD []) p := by
          unfold goLe
          cases hlt : listLt p (b.inputs.getLastD []) with
          | false => rfl
          | true => exact absurd ⟨hflag, hnil, hlt⟩ hcond
        exact Trans.trans (mem_le_getLastD b.inputs [] hsorted a ha) hlast

theorem AppendMany_ok : ∀ {l : List (List Nat)} {b b' : Builder},
    AppendMany b l = .ok b' →
    b'.inputs = b.inputs ++ l ∧ b'.opts = b.opts ∧
      (BuilderWF b → BuilderWF b') := by
  intro l
  induction l with
  | nil =>
    intro b b' h
    simp only [AppendMany, Except.ok.injEq] at h
    subst h
    exact ⟨by simp, rfl, id⟩
  | cons p rest ih =>
    intro b b' h
    unfold AppendMany at h
    cases hap : Append b p with
    | error e => rw [hap] at h; simp at h
    | ok b1 =>
      rw [hap] at h
      obtain ⟨hi1, ho1, hw1⟩ := Append_ok hap
      obtain ⟨hi2, ho2, hw2⟩ := ih h
      exact ⟨by rw [hi2, hi1, List.append_assoc]; rfl,
        by rw [ho2, ho1], fun hwf => hw2 (hw1 hwf)⟩

theorem buildInputs_eq_sort {b : Builder} (hwf : BuilderWF b) :
    buildInputs b = sortStrings b.inputs := by
  unfold buildInputs
  split
  · exact (sortStrings_of_sorted (hwf (by assumption))).symm
  · rfl

/-! ## C4: the worker pool is equivalent to the serial build -/

/-- Slot disjointness: after running any set of jobs in any order, slot `i`
holds the value of job `i` if job `i` ran, and is untouched otherwise —
independent of the execution order and of which worker ran it. -/
theorem runJobs_get {ε : Type} (be : List Nat → Except ε TextureEntry)
    (inputs : List (List Nat)) :
    ∀ (ord : List Nat) (slots : Nat → Option (Except ε TextureEntry)) (i : Nat),
      runJobs be inputs ord slots i =
        if i ∈ ord then some (be (inputs.getD i [])) else slots i := by
  intro ord
  induction ord with
  | nil =>
    intro slots i
    simp [runJobs]
  | cons j ord' ih =>
    intro slots i
    show runJobs be inputs ord'
      (fun k => if k = j then some (be (inputs.getD j [])) else slots k) i = _
    rw [ih]
    by_cases hmem : i ∈ ord'
    · rw [if_pos hmem, if_pos (List.mem_cons_of_mem _ hmem)]
    · rw [if_neg hmem]
      by_cases hij : i = j
      · subst hij
        rw [if_pos rfl, if_pos (List.mem_cons_self _ _)]
      · rw [if_neg hij, if_neg (by simp [hij, hmem])]

/-- Collecting fully-populated slots in index order is the serial loop. -/
theorem collectLoop_eq_serial {ε : Type} (be : List Nat → Except ε TextureEntry)
    (skip : Bool) (results : Nat → Option (Except ε TextureEntry)) :
    ∀ (rest : List (List Nat)) (i0 : Nat) (acc : List TextureEntry)
      (iss : List (List Nat × ε)),
      (∀ k, k < rest.length → results (i0 + k) = some (be (rest.getD k []))) →
      collectLoop skip results i0 rest acc iss =
        buildLoopSerial be skip rest acc iss := by
  intro rest
  induction rest with
  | nil => intro i0 acc iss _; rfl
  | cons p rest' ih =>
    intro i0 acc iss hres
    have h0 : results i0 = some (be p) := by
      have := hres 0 (by simp)
      simpa using this
    show collectLoop skip results i0 (p :: rest') acc iss = _
    unfold collectLoop buildLoopSerial
    rw [h0]
    have hshift : ∀ k, k < rest'.length →
        results (i0 + 1 + k) = some (be (rest'.getD k [])) := by
      intro k hk
      have := hres (k + 1) (by simpa using Nat.succ_lt_succ hk)
      have harith : i0 + (k + 1) = i0 + 1 + k := by omega
      rw [harith] at this
      simpa using this
    cases hbe : be p with
    | ok entry =>
      simp only [Option.getD_some]
      exact ih (i0 + 1) (acc ++ [entry]) iss hshift
    | error err =>
      simp only [Option.getD_some]
      by_cases hskip : skip = true
      · subst hskip
        simp only [if_pos rfl]
        exact ih (i0 + 1) acc (iss ++ [(p, err)]) hshift
      · have : skip = false := by revert hskip; cases skip <;> simp
        subst this
        simp

/-- C4: for every worker-pool setting (held in the builder's options), every
host parallelism and every job execution schedule that runs all jobs, the
pool path of `Build` produces exactly the serial result — and the serial
result itself never depends on the workers setting. -/
theorem c4_build_worker_invariant {ε : Type}
    (gmp : Nat) (be : List Nat → Except ε TextureEntry) (ord : List Nat)
    (b : Builder)
    (hcov : ∀ i, i < (buildInputs b).length → i ∈ ord) :
    Build gmp be ord b = BuildSerial be b ∧
      ∀ w : Int,
        BuildSerial be { b with opts := { b.opts with workers := w } } =
          BuildSerial be b := by
  constructor
  · unfold Build
    dsimp only
    split
    · rfl
    · have hres : ∀ k, k < (buildInputs b).length →
          runJobs be (buildInputs b) ord (fun _ => none) k =
            some (be ((buildInputs b).getD k [])) := by
        intro k hk
        rw [runJobs_get be (buildInputs b) ord (fun _ => none) k,
          if_pos (hcov k hk)]
      rw [collectLoop_eq_serial be b.opts.skipInvalid _ (buildInputs b) 0 [] []
        (by simpa using hres)]
      rfl
  · intro w
    rfl

/-- Witness for `c4_build_worker_invariant`: two inputs, workers 4 (so the
pool path is taken: `resolveBuildWorkers 20 4 2 = 2`), schedule `[1, 0]`
(jobs completing out of order). -/
def c4Opts : BuildOptions :=
  { suffixOverrides := [], baseDir := [], skipInvalid := false,
    lowercasePaths := true, backslashPaths := true, workers := 4 }

def c4Builder : Builder :=
  { inputs := [[97], [98]], opts := c4Opts, inputsSorted := true }

def c4Oracle : List Nat → Except Unit TextureEntry :=
  fun p => .ok { entryDefault with paaFile := p }

theorem c4_build_worker_invariant_witness :
    Build 20 c4Oracle [1, 0] c4Builder = BuildSerial c4Oracle c4Builder ∧
      ∀ w : Int,
        BuildSerial c4Oracle
            { c4Builder with opts := { c4Opts with workers := w } } =
          BuildSerial c4Oracle c4Builder :=
  c4_build_worker_invariant 20 c4Oracle [1, 0] c4Builder
    (fun i hi => by
      have h2 : i < 2 := by simpa [buildInputs, c4Builder] using hi
      interval_cases i <;> simp)

/-! ## C5: append order does not matter; output follows the sorted inputs -/

/-- C5: two `Append` sequences that are permutations of each other (all
paths non-blank, hence accepted) lead to the same build: the list both
builds iterate is the lexicographically sorted input list, and the build
results coincide. -/
theorem c5_append_order_independent {ε : Type}
    (opts : BuildOptions) (l1 l2 : List (List Nat)) (b1 b2 : Builder)
    (be : List Nat → Except ε TextureEntry)
    (hperm : l1.Perm l2)
    (h1 : AppendMany (NewBuilder opts) l1 = .ok b1)
    (h2 : AppendMany (NewBuilder opts) l2 = .ok b2) :
    buildInputs b1 = sortStrings l1 ∧
      (buildInputs b1).Sorted goLe ∧
      buildInputs b1 = buildInputs b2 ∧
      BuildSerial be b1 = BuildSerial be b2 := by
  obtain ⟨hi1, ho1, hw1⟩ := AppendMany_ok h1
  obtain ⟨hi2, ho2, hw2⟩ := AppendMany_ok h2
  have hwf1 : BuilderWF b1 := hw1 (NewBuilder_wf opts)
  have hwf2 : BuilderWF b2 := hw2 (NewBuilder_wf opts)
  have hinp1 : b1.inputs = l1 := by simpa [NewBuilder] using hi1
  have hinp2 : b2.inputs = l2 := by simpa [NewBuilder] using hi2
  have hb1 : buildInputs b1 = sortStrings l1 := by
    rw [buildInputs_eq_sort hwf1, hinp1]
  have hb2 : buildInputs b2 = sortStrings l2 := by
    rw [buildInputs_eq_sort hwf2, hinp2]
  have heq : buildInputs b1 = buildInputs b2 := by
    rw [hb1, hb2]
    exact sortStrings_congr hperm
  refine ⟨hb1, ?_, heq, ?_⟩
  · rw [hb1]
    exact sortStrings_sorted l1
  · unfold BuildSerial
    rw [heq, ho1, ho2]

/-- The two builders the C5 witness produces by appending `"b", "a"`
versus `"a", "b"` from a fresh builder. -/
def c5Opts : BuildOptions := { c4Opts with workers := 0 }

def c5B1 : Builder :=
  { inputs := [[98], [97]], opts := NewBuilder c5Opts |>.opts,
    inputsSorted := false }

def c5B2 : Builder :=
  { inputs := [[97], [98]], opts := NewBuilder c5Opts |>.opts,
    inputsSorted := true }

/-- Witness for `c5_append_order_independent`: appending `"b", "a"` versus
`"a", "b"`. -/
theorem c5_append_order_independent_witness :
    buildInputs c5B1 = sortStrings [[98], [97]] ∧
      (buildInputs c5B1).Sorted goLe ∧
      buildInputs c5B1 = buildInputs c5B2 ∧
      BuildSerial c4Oracle c5B1 = BuildSerial c4Oracle c5B2 :=
  c5_append_order_independent c5Opts [[98], [97]] [[97], [98]] c5B1 c5B2
    c4Oracle (List.Perm.swap _ _ _) (by rfl) (by rfl)

/-! ## C10: lowercase and backslash normalization cannot be disabled -/

theorem toLowerByte_idem (b : Nat) : toLowerByte (toLowerByte b) = toLowerByte b := by
  unfold toLowerByte
  split_ifs <;> omega

theorem toLowerByte_ne_slash {b : Nat} (h : b ≠ 47) : toLowerByte b ≠ 47 := by
  unfold toLowerByte
  split_ifs <;> omega

/-- With both flags on, `normalizePath` is the lowercase image of the
backslashed, prefix-trimmed resolved path. -/
theorem normalizePath_forced (resolve : List Nat → List Nat)
    (opts : BuildOptions) (h1 : opts.lowercasePaths = true)
    (h2 : opts.backslashPaths = true) (input : List Nat) :
    normalizePath resolve opts input =
      (trimPrefixList (replaceAllByte (resolve input) 47 92) [46, 92]).map
        toLowerByte := by
  unfold normalizePath
  rw [h2, h1]
  simp

/-- C10: whatever options are passed, the constructed builder has both
normalization flags on; `Append` (the only operation that updates a
builder) never touches the options; and under the forced options every
normalized path — which `buildEntry` stores verbatim as the entry's
`PAAFile` — contains no forward slash and is its own lowercase image,
for every base-directory resolution and every input. -/
theorem c10_normalizations_forced (opts : BuildOptions)
    (resolve : List Nat → List Nat) (input path : List Nat) (b b' : Builder) :
    (NewBuilder opts).opts.lowercasePaths = true ∧
    (NewBuilder opts).opts.backslashPaths = true ∧
    (Append b path = .ok b' → b'.opts = b.opts) ∧
    47 ∉ normalizePath resolve (NewBuilder opts).opts input ∧
    (normalizePath resolve (NewBuilder opts).opts input).map toLowerByte =
      normalizePath resolve (NewBuilder opts).opts input := by
  have hnp := normalizePath_forced resolve (NewBuilder opts).opts rfl rfl input
  refine ⟨rfl, rfl, fun h => (Append_ok h).2.1, ?_, ?_⟩
  · rw [hnp]
    intro hmem
    obtain ⟨c, hc, hlc⟩ := List.mem_map.mp hmem
    have hc47 : c ≠ 47 := by
      intro h47
      subst h47
      have hc' : (47 : Nat) ∈ replaceAllByte (resolve input) 47 92 := by
        unfold trimPrefixList at hc
        split at hc
        · exact List.mem_of_mem_drop hc
        · exact hc
      obtain ⟨x, _, hx⟩ := List.mem_map.mp hc'
      revert hx
      split_ifs <;> omega
    exact toLowerByte_ne_slash hc47 hlc
  · rw [hnp, List.map_map]
    exact List.map_congr_left fun c _ => toLowerByte_idem c

/-- Witness for `c10_normalizations_forced`: options with both flags off,
identity resolution, input `"AB/c"`, and a concrete `Append`. -/
def c10Opts : BuildOptions :=
  { suffixOverrides := [], baseDir := [], skipInvalid := false,
    lowercasePaths := false, backslashPaths := false, workers := 0 }

theorem c10_normalizations_forced_witness :
    (NewBuilder c10Opts).opts.lowercasePaths = true ∧
      (NewBuilder c10Opts).opts.backslashPaths = true ∧
      (Append (NewBuilder c10Opts) [97] =
          .ok { inputs := [[97]], opts := (NewBuilder c10Opts).opts,
                inputsSorted := true } →
        ({ inputs := [[97]], opts := (NewBuilder c10Opts).opts,
           inputsSorted := true } : Builder).opts = (NewBuilder c10Opts).opts) ∧
      47 ∉ normalizePath id (NewBuilder c10Opts).opts [65, 66, 47, 99] ∧
      (normalizePath id (NewBuilder c10Opts).opts [65, 66, 47, 99]).map
          toLowerByte =
        normalizePath id (NewBuilder c10Opts).opts [65, 66, 47, 99] :=
  c10_normalizations_forced c10Opts id [65, 66, 47, 99] [97]
    (NewBuilder c10Opts)
    { inputs := [[97]], opts := (NewBuilder c10Opts).opts,
      inputsSorted := true }

end Texheaders
